import Mathlib

/-!
# pacrat: backup discovery, snapshot correlation and archival

A shallow embedding of `src/pacrat.c`.

* C strings are lists of characters, one `Char` standing for one byte.
* `exit(EXIT_FAILURE)` is the result `none`.
* The classifier (`alpm_find_backups`) observes the machine through a `World`:
  the answers of `access(·, R_OK)`, `alpm_compute_md5sum` and `stat`.
* The archiver (`archive`, `mkpath`, `copy`) runs on a small concrete file
  system `FS`, a map from resolved paths to nodes, with the syscalls the
  program makes (`stat`, `mkdir`, `open`, `read`, `write`).
* Claims about a run of `archive` are about a run that completes; a run that
  exits leaves no file system to speak about.
-/

set_option linter.unusedVariables false
set_option maxRecDepth 100000

namespace Pacrat

/-- A C string: the bytes before the terminating NUL. -/
abbrev Str := List Char

/-! ## Macros and enums -/

def PACMAN_ROOT : Str := "/".toList

/-- The `PATH_MAX` of `<limits.h>` on Linux. -/
def PATH_MAX : Nat := 4096

def LOG_INFO : Nat := 1
def LOG_ERROR : Nat := 2
def LOG_WARN : Nat := 4
def LOG_DEBUG : Nat := 8
def LOG_VERBOSE : Nat := 16
def LOG_BRIEF : Nat := 32

def CONF_PACNEW : Nat := 1
def CONF_PACSAVE : Nat := 2
def CONF_PACORIG : Nat := 4

def NC : Str := "\x1b[0m".toList
def BOLD : Str := "\x1b[1m".toList
def BOLDRED : Str := "\x1b[1;31m".toList
def BOLDYELLOW : Str := "\x1b[1;33m".toList
def BOLDBLUE : Str := "\x1b[1;34m".toList

/-- The macro `STREQ(x,y)`: `strcmp(x,y) == 0`. -/
def STREQ (x y : Str) : Bool := decide (x = y)

/-! ## Data model -/

/-- The struct `file_t`; a NULL pointer is `none`. -/
structure file_t where
  path : Option Str
  hash : Option Str
  deriving DecidableEq, Repr

/-- The struct `backup_t`. -/
structure backup_t where
  pkgname : Str
  system : file_t
  «local» : file_t
  hash : Str
  deriving DecidableEq, Repr

/-- The struct `strings_t`. -/
structure strings_t where
  error : Str
  warn : Str
  info : Str
  pkg : Str
  nc : Str
  deriving DecidableEq, Repr

/-- The fields of the global `cfg` the modelled functions read. -/
structure cfg_t where
  logmask : Nat
  color : Int

/-- An entry of a package's backup list (libalpm's `alpm_backup_t`). -/
structure alpm_backup_t where
  name : Str
  hash : Str
  deriving DecidableEq, Repr

/-- What the classifier reads of a package: `alpm_pkg_get_name` and
`alpm_pkg_get_backup`. -/
structure alpm_pkg_t where
  name : Str
  backup : List alpm_backup_t

/-- What the classifier observes of the machine. -/
structure World where
  /-- Whether `access(path, R_OK) == 0`. -/
  access_R_OK : Str → Bool
  /-- The result of `alpm_compute_md5sum(path)`; `none` is NULL. -/
  md5sum : Str → Option Str
  /-- The `st_mode` that `stat(path, &st)` stores, `none` when it fails. -/
  stat : Str → Option Nat

/-! ## Formatting -/

/-- What `snprintf(buf, size, ...)` leaves in `buf` when the formatted text is
`s`: at most `size - 1` bytes of it. -/
def snprintf (size : Nat) (s : Str) : Str := s.take (size - 1)

/-- The part of `vfprintf` the program uses: every `%s` is replaced by the next
argument, every other byte is copied. -/
def vformat : Str → List Str → Str
  | '%' :: 's' :: rest, a :: args => a ++ vformat rest args
  | c :: rest, args => c :: vformat rest args
  | [], _ => []

def strings_init (cfg : cfg_t) : strings_t :=
  if cfg.color > 0 then
    { error := BOLDRED ++ "::".toList ++ NC
      warn := BOLDYELLOW ++ "::".toList ++ NC
      info := BOLDBLUE ++ "::".toList ++ NC
      pkg := BOLD
      nc := NC }
  else
    { error := "error:".toList
      warn := "warning:".toList
      info := "::".toList
      pkg := []
      nc := [] }

/-- The text `cwr_vfprintf` writes to its stream. -/
def cwr_vfprintf (cfg : cfg_t) (colstr : strings_t) (level : Nat) (format : Str)
    (args : List Str) : Str :=
  if cfg.logmask &&& level = 0 then []
  else
    let pfx : Str :=
      if level = LOG_VERBOSE ∨ level = LOG_INFO then colstr.info
      else if level = LOG_ERROR then colstr.error
      else if level = LOG_WARN then colstr.warn
      else if level = LOG_DEBUG then "debug:".toList
      else []
    let bufout := snprintf 128 (pfx ++ ' ' :: format)
    vformat bufout args

def cwr_fprintf (cfg : cfg_t) (colstr : strings_t) (level : Nat) (format : Str)
    (args : List Str) : Str :=
  cwr_vfprintf cfg colstr level format args

/-! ## The classifier -/

/-- The function `get_hash`: the digest, or `none` for `exit(EXIT_FAILURE)`. -/
def get_hash (w : World) (path : Str) : Option Str :=
  w.md5sum path

/-- The function `file_init`: the initialised `file_t`, or `none` when
`get_hash` exits. -/
def file_init (w : World) (path : Str) (hash : Option Str) : Option file_t :=
  match hash with
  | some h => some { path := some path, hash := some h }
  | none =>
    match get_hash w path with
    | some h => some { path := some path, hash := some h }
    | none => none

def check_pacfiles (w : World) (file : Str) : Nat :=
  let ret := 0
  let ret := if w.access_R_OK (snprintf PATH_MAX (file ++ ".pacnew".toList))
    then ret ||| CONF_PACNEW else ret
  let ret := if w.access_R_OK (snprintf PATH_MAX (file ++ ".pacsave".toList))
    then ret ||| CONF_PACSAVE else ret
  let ret := if w.access_R_OK (snprintf PATH_MAX (file ++ ".pacorig".toList))
    then ret ||| CONF_PACORIG else ret
  ret

/-- The `S_ISREG` and `S_ISDIR` macros of `<sys/stat.h>`. -/
def S_ISREG (m : Nat) : Bool := decide (m &&& 0o170000 = 0o100000)
def S_ISDIR (m : Nat) : Bool := decide (m &&& 0o170000 = 0o040000)

/-- The loop state of `alpm_find_backups`: the list `backups` and the text
written to stderr so far. -/
structure find_state where
  backups : List backup_t
  err : Str
  deriving DecidableEq, Repr

/-- The path of a tracked file: `snprintf(path, PATH_MAX, "%s%s", PACMAN_ROOT, name)`. -/
def system_path (name : Str) : Str := snprintf PATH_MAX (PACMAN_ROOT ++ name)

/-- The path probed for a local copy:
`snprintf(path, PATH_MAX, "%s/%s", pkgname, name)`. -/
def local_path (pkgname name : Str) : Str :=
  snprintf PATH_MAX (pkgname ++ '/' :: name)

/-- One iteration of the `for` loop of `alpm_find_backups`; `none` when the
process exits. -/
def find_body (cfg : cfg_t) (colstr : strings_t) (w : World) (pkgname : Str)
    (everything : Bool) (s : find_state) (backup : alpm_backup_t) : Option find_state :=
  let path := system_path backup.name
  if w.access_R_OK path = false then
    let msg := cwr_fprintf cfg colstr LOG_WARN "can't access %s\n".toList [path]
    some { backups := s.backups, err := s.err ++ msg }
  else
    let pacfiles := check_pacfiles w path
    let err := s.err
    let err := if pacfiles &&& CONF_PACNEW ≠ 0 then err ++
      cwr_fprintf cfg colstr LOG_WARN "pacnew file detected %s\n".toList [path] else err
    let err := if pacfiles &&& CONF_PACSAVE ≠ 0 then err ++
      cwr_fprintf cfg colstr LOG_WARN "pacsave file detected %s\n".toList [path] else err
    let err := if pacfiles &&& CONF_PACORIG ≠ 0 then err ++
      cwr_fprintf cfg colstr LOG_WARN "pacorig file detected %s\n".toList [path] else err
    match get_hash w path with
    | none => none
    | some hash =>
      if !everything && STREQ backup.hash hash then
        some { backups := s.backups, err := err }
      else
        let err := err ++ cwr_fprintf cfg colstr LOG_DEBUG "found backup: %s\n".toList [path]
        match file_init w path (some hash) with
        | none => none
        | some sys =>
          let path := local_path pkgname backup.name
          match w.stat path with
          | some mode =>
            if S_ISREG mode then
              let err := err ++
                cwr_fprintf cfg colstr LOG_DEBUG "found local copy: %s\n".toList [path]
              match file_init w path none with
              | none => none
              | some loc =>
                some { backups := s.backups ++ [{ pkgname := pkgname, system := sys,
                                                  «local» := loc, hash := backup.hash }]
                       err := err }
            else
              some { backups := s.backups ++ [{ pkgname := pkgname, system := sys,
                                                «local» := ⟨none, none⟩, hash := backup.hash }]
                     err := err }
          | none =>
            some { backups := s.backups ++ [{ pkgname := pkgname, system := sys,
                                              «local» := ⟨none, none⟩, hash := backup.hash }]
                   err := err }

/-- The `for` loop of `alpm_find_backups` over the backup list. -/
def find_loop (cfg : cfg_t) (colstr : strings_t) (w : World) (pkgname : Str)
    (everything : Bool) : find_state → List alpm_backup_t → Option find_state
  | s, [] => some s
  | s, b :: rest =>
    match find_body cfg colstr w pkgname everything s b with
    | none => none
    | some s1 => find_loop cfg colstr w pkgname everything s1 rest

/-- The function `alpm_find_backups`: the returned list together with the text
written to stderr, or `none` when the process exits. -/
def alpm_find_backups (cfg : cfg_t) (colstr : strings_t) (w : World) (pkg : alpm_pkg_t)
    (everything : Bool) : Option find_state :=
  find_loop cfg colstr w pkg.name everything { backups := [], err := [] } pkg.backup

/-! ## List mode -/

/-- How glibc's `printf` renders a `%s` argument; NULL prints as `(null)`. -/
def show_str : Option Str → Str
  | some s => s
  | none => "(null)".toList

/-- The text `print_status` writes to stdout; `none` when `strcmp` is handed a
NULL pointer. -/
def print_status (colstr : strings_t) (b : backup_t) : Option Str :=
  let out := vformat "%s%s%s %s\n".toList [colstr.pkg, b.pkgname, colstr.nc, show_str b.system.path]
  match b.local.path with
  | none => some (out ++ vformat "  file not locally tracked\n".toList [])
  | some _ =>
    match b.system.hash, b.local.hash with
    | some sh, some lh =>
      if !STREQ sh lh then
        some (out ++ vformat "  %s hashes don't match!\n".toList [colstr.warn]
                  ++ vformat "     %s\n     %s\n".toList [sh, lh])
      else some out
    | _, _ => none

/-! ## The classifier, entry by entry -/

/-- The record one backup entry contributes: `none` when the process exits on
it, `some none` when the entry is skipped. -/
def entry_record (w : World) (pkgname : Str) (everything : Bool) (e : alpm_backup_t) :
    Option (Option backup_t) :=
  if w.access_R_OK (system_path e.name) = false then some none
  else
    match w.md5sum (system_path e.name) with
    | none => none
    | some h =>
      if !everything && STREQ e.hash h then some none
      else
        match w.stat (local_path pkgname e.name) with
        | some mode =>
          if S_ISREG mode then
            match w.md5sum (local_path pkgname e.name) with
            | none => none
            | some lh =>
              some (some { pkgname := pkgname
                           system := ⟨some (system_path e.name), some h⟩
                           «local» := ⟨some (local_path pkgname e.name), some lh⟩
                           hash := e.hash })
          else
            some (some { pkgname := pkgname
                         system := ⟨some (system_path e.name), some h⟩
                         «local» := ⟨none, none⟩
                         hash := e.hash })
        | none =>
          some (some { pkgname := pkgname
                       system := ⟨some (system_path e.name), some h⟩
                       «local» := ⟨none, none⟩
                       hash := e.hash })

/-- The records a list of entries contributes, in order; `none` when the
process exits on one of them. -/
def entry_records (w : World) (pkgname : Str) (everything : Bool) :
    List alpm_backup_t → Option (List backup_t)
  | [] => some []
  | e :: rest =>
    match entry_record w pkgname everything e with
    | none => none
    | some r =>
      match entry_records w pkgname everything rest with
      | none => none
      | some rs => some (r.toList ++ rs)

/-- Whether a regular file is found by `stat` at a path. -/
def regular_at (w : World) (path : Str) : Bool :=
  match w.stat path with
  | some mode => S_ISREG mode
  | none => false

/-- Whether an entry contributes a record. -/
def produces (w : World) (pkgname : Str) (everything : Bool) (e : alpm_backup_t) : Bool :=
  match entry_record w pkgname everything e with
  | some (some _) => true
  | _ => false

/-! ## Concrete packages and machines -/

/-- The run configuration `main` starts from: errors, warnings and information
are logged, colour is off. -/
def cfg_default : cfg_t := { logmask := LOG_ERROR ||| LOG_WARN ||| LOG_INFO, color := 0 }

/-- A machine on which every path is readable and hashes to `D0`, and on which
no local copy exists. -/
def world_D0 : World :=
  { access_R_OK := fun _ => true
    md5sum := fun _ => some "D0".toList
    stat := fun _ => none }

/-- A package that lists `etc/sudoers` twice, with the recorded digests `D0`
and `D1`. -/
def pkg_two_digests : alpm_pkg_t :=
  { name := "sudo".toList
    backup := [⟨"etc/sudoers".toList, "D0".toList⟩, ⟨"etc/sudoers".toList, "D1".toList⟩] }

/-- A package with two tracked files: `etc/sudoers` recorded with digest `D0`
and `etc/pam.d/sudo` recorded with digest `D1`. -/
def pkg_plain : alpm_pkg_t :=
  { name := "sudo".toList
    backup := [⟨"etc/sudoers".toList, "D0".toList⟩, ⟨"etc/pam.d/sudo".toList, "D1".toList⟩] }

/-- A package that lists `etc/fstab` twice with the same recorded digest `D7`. -/
def pkg_listed_twice : alpm_pkg_t :=
  { name := "filesystem".toList
    backup := [⟨"etc/fstab".toList, "D7".toList⟩, ⟨"etc/fstab".toList, "D7".toList⟩] }

/-- What `alpm_find_backups` returns for `pkg_plain` on `world_D0`: the one
record of `etc/pam.d/sudo`, and the sibling warnings on stderr. -/
def state_plain : find_state :=
  { backups := [{ pkgname := "sudo".toList
                  system := ⟨some "/etc/pam.d/sudo".toList, some "D0".toList⟩
                  «local» := ⟨none, none⟩
                  hash := "D1".toList }]
    err := ("warning: pacnew file detected /etc/sudoers\n" ++
      "warning: pacsave file detected /etc/sudoers\n" ++
      "warning: pacorig file detected /etc/sudoers\n" ++
      "warning: pacnew file detected /etc/pam.d/sudo\n" ++
      "warning: pacsave file detected /etc/pam.d/sudo\n" ++
      "warning: pacorig file detected /etc/pam.d/sudo\n").toList }

/-- A machine on which `/etc/sudoers` has digest `D1`, and the working
directory holds an archived copy `sudo/etc/sudoers` with digest `D2`;
`/etc/shadow` cannot be read. -/
def world_tracked : World :=
  { access_R_OK := fun p => decide (p ≠ "/etc/shadow".toList)
    md5sum := fun p =>
      if p = "/etc/sudoers".toList then some "D1".toList
      else if p = "sudo/etc/sudoers".toList then some "D2".toList
      else if p = "/etc/shadow".toList then none
      else some "D0".toList
    stat := fun p =>
      if p = "sudo/etc/sudoers".toList then some 0o100644
      else if p = "sudo/etc".toList then some 0o040755
      else none }

/-- A package with a modified tracked file that has an archived copy, a tracked
file with no archived copy, and an unreadable one. -/
def pkg_tracked : alpm_pkg_t :=
  { name := "sudo".toList
    backup := [⟨"etc/sudoers".toList, "D0".toList⟩, ⟨"etc/shadow".toList, "D5".toList⟩,
               ⟨"etc/pam.d/sudo".toList, "D9".toList⟩] }

/-- The record of `etc/sudoers` of `pkg_tracked` on `world_tracked`. -/
def record_sudoers : backup_t :=
  { pkgname := "sudo".toList
    system := ⟨some "/etc/sudoers".toList, some "D1".toList⟩
    «local» := ⟨some "sudo/etc/sudoers".toList, some "D2".toList⟩
    hash := "D0".toList }

/-- The record of `etc/pam.d/sudo` of `pkg_tracked` on `world_tracked`. -/
def record_pam : backup_t :=
  { pkgname := "sudo".toList
    system := ⟨some "/etc/pam.d/sudo".toList, some "D0".toList⟩
    «local» := ⟨none, none⟩
    hash := "D9".toList }

/-- The three sibling paths `check_pacfiles` probes for a file. -/
def pacfile_paths (file : Str) : List Str :=
  [snprintf PATH_MAX (file ++ ".pacnew".toList),
   snprintf PATH_MAX (file ++ ".pacsave".toList),
   snprintf PATH_MAX (file ++ ".pacorig".toList)]

/-- The warning line for the sibling `<file>.<kind>` when it is readable, and
nothing when it is not. -/
def sibling_warning (cfg : cfg_t) (w : World) (file kind : Str) : Str :=
  if w.access_R_OK (snprintf PATH_MAX (file ++ '.' :: kind)) = true then
    (strings_init cfg).warn ++ (' ' :: kind ++ " file detected ".toList) ++ file ++ "\n".toList
  else []

/-- The text on stderr after the three sibling checks of an iteration of the
loop of `alpm_find_backups`, when it was `err` before them. -/
def sibling_checks (cfg : cfg_t) (colstr : strings_t) (w : World) (path : Str) (err : Str) :
    Str :=
  let pacfiles := check_pacfiles w path
  let err := if pacfiles &&& CONF_PACNEW ≠ 0 then err ++
    cwr_fprintf cfg colstr LOG_WARN "pacnew file detected %s\n".toList [path] else err
  let err := if pacfiles &&& CONF_PACSAVE ≠ 0 then err ++
    cwr_fprintf cfg colstr LOG_WARN "pacsave file detected %s\n".toList [path] else err
  let err := if pacfiles &&& CONF_PACORIG ≠ 0 then err ++
    cwr_fprintf cfg colstr LOG_WARN "pacorig file detected %s\n".toList [path] else err
  err

/-- An iteration of the loop of `alpm_find_backups` from the digest on, when
the text on stderr is `err`. -/
def find_classify (cfg : cfg_t) (colstr : strings_t) (w : World) (pkgname : Str)
    (everything : Bool) (s : find_state) (backup : alpm_backup_t) (err : Str) :
    Option find_state :=
  let path := system_path backup.name
  match get_hash w path with
  | none => none
  | some hash =>
    if !everything && STREQ backup.hash hash then
      some { backups := s.backups, err := err }
    else
      let err := err ++ cwr_fprintf cfg colstr LOG_DEBUG "found backup: %s\n".toList [path]
      match file_init w path (some hash) with
      | none => none
      | some sys =>
        let path := local_path pkgname backup.name
        match w.stat path with
        | some mode =>
          if S_ISREG mode then
            let err := err ++
              cwr_fprintf cfg colstr LOG_DEBUG "found local copy: %s\n".toList [path]
            match file_init w path none with
            | none => none
            | some loc =>
              some { backups := s.backups ++ [{ pkgname := pkgname, system := sys,
                                                «local» := loc, hash := backup.hash }]
                     err := err }
          else
            some { backups := s.backups ++ [{ pkgname := pkgname, system := sys,
                                              «local» := ⟨none, none⟩, hash := backup.hash }]
                   err := err }
        | none =>
          some { backups := s.backups ++ [{ pkgname := pkgname, system := sys,
                                            «local» := ⟨none, none⟩, hash := backup.hash }]
                 err := err }

/-- A package that tracks `etc/foo.conf` and also what would be its `.pacnew`
sibling. -/
def pkg_tracks_sibling : alpm_pkg_t :=
  { name := "foo".toList
    backup := [⟨"etc/foo.conf".toList, "D0".toList⟩, ⟨"etc/foo.conf.pacnew".toList, "D1".toList⟩] }

/-- A machine on which every file hashes to `D0` and `/etc/foo.conf.pacnew` is
absent. -/
def world_no_pacnew : World :=
  { access_R_OK := fun p => decide (p ≠ "/etc/foo.conf.pacnew".toList)
    md5sum := fun _ => some "D0".toList
    stat := fun _ => none }

/-- A package that tracks `etc/foo.conf` alone, recorded with digest `D0`. -/
def pkg_foo : alpm_pkg_t :=
  { name := "foo".toList
    backup := [⟨"etc/foo.conf".toList, "D0".toList⟩] }

/-! ## The file system of the archiver

A file system without symbolic links, seen by a process that passes every
permission check. A node is addressed by the list of its path components from
the root; `.` and `..` have no special meaning. -/

/-- A resolved path: the components from the root directory. -/
abbrev Path := List Str

/-- A file or a directory: its `st_mode` (type and permission bits) and, for a
file, its bytes. -/
structure Node where
  mode : Nat
  data : Str
  deriving DecidableEq, Repr

/-- The file system and the process attributes path resolution and creation
depend on, with the record of the `mkdir` calls that succeeded. -/
structure FS where
  nodes : Path → Option Node
  cwd : Path
  umask : Nat
  mkdirs : List (Str × Nat)

def S_IFDIR : Nat := 0o040000
def S_IFREG : Nat := 0o100000

/-- The components of a path name: the maximal runs of bytes other than `/`,
after the run `cur` collected so far. -/
def components_from : Str → Str → List Str
  | [], cur => if cur = [] then [] else [cur]
  | c :: rest, cur =>
    if c = '/' then
      if cur = [] then components_from rest [] else cur :: components_from rest []
    else components_from rest (cur ++ [c])

def components (p : Str) : List Str := components_from p []

/-- Path resolution: an absolute name is resolved from the root, any other name
from the working directory. -/
def resolve (fs : FS) (p : Str) : Path :=
  if p.head? = some '/' then components p else fs.cwd ++ components p

/-- Whether a path name ends in `/`; such a name only resolves to a directory. -/
def trailing_slash (p : Str) : Bool := decide (p.getLast? = some '/')

/-- The node a path name resolves to: `none` when the name is empty, when
nothing is there, or when the name ends in `/` and what is there is no directory. -/
def lookup (fs : FS) (p : Str) : Option Node :=
  if p = [] then none
  else
    match fs.nodes (resolve fs p) with
    | none => none
    | some n => if trailing_slash p && !S_ISDIR n.mode then none else some n

/-- The syscall `stat(path, &st)`: the `st_mode` stored, `none` when it fails. -/
def stat (fs : FS) (p : Str) : Option Nat :=
  (lookup fs p).map (fun n => n.mode)

/-- The permission bits left once the bits of the umask are cleared. -/
def clear_umask (mode umask : Nat) : Nat :=
  mode &&& (0o7777 ^^^ (umask &&& 0o777))

def set_node (fs : FS) (q : Path) (n : Node) : FS :=
  { fs with nodes := fun x => if x = q then some n else fs.nodes x }

/-- The syscall `mkdir(path, mode)`: the file system after it, `none` when it
fails (the name exists, or its parent is not an existing directory). -/
def mkdir (fs : FS) (p : Str) (mode : Nat) : Option FS :=
  let q := resolve fs p
  if p = [] ∨ q = [] then none
  else
    match fs.nodes q with
    | some _ => none
    | none =>
      match fs.nodes q.dropLast with
      | none => none
      | some parent =>
        if S_ISDIR parent.mode then
          some { set_node fs q ⟨S_IFDIR ||| clear_umask (mode &&& 0o1777) fs.umask, []⟩ with
                 mkdirs := fs.mkdirs ++ [(p, mode)] }
        else none

/-- The call `open(src, O_RDONLY)`: the node the descriptor refers to, `none`
for the descriptor `-1`. -/
def open_rdonly (fs : FS) (p : Str) : Option Path :=
  match lookup fs p with
  | some _ => some (resolve fs p)
  | none => none

/-- The call `open(dest, O_WRONLY | O_CREAT | O_TRUNC, mode)`: the file system
after it and the node the descriptor refers to, `none` for the descriptor `-1`. -/
def open_creat_trunc (fs : FS) (p : Str) (mode : Nat) : FS × Option Path :=
  let q := resolve fs p
  if p = [] ∨ q = [] ∨ trailing_slash p = true then (fs, none)
  else
    match fs.nodes q with
    | some n =>
      if S_ISDIR n.mode then (fs, none)
      else (set_node fs q { n with data := [] }, some q)
    | none =>
      match fs.nodes q.dropLast with
      | none => (fs, none)
      | some parent =>
        if S_ISDIR parent.mode then
          (set_node fs q ⟨S_IFREG ||| clear_umask (mode &&& 0o7777) fs.umask, []⟩, some q)
        else (fs, none)

/-- The call `read(in, buf, sizeof(buf))` at offset `off`: the bytes read; the
empty list stands for a result `<= 0` (end of file, a directory, or the
descriptor `-1`). -/
def read (fs : FS) (fd : Option Path) (off : Nat) (size : Nat) : Str :=
  match fd with
  | none => []
  | some q =>
    match fs.nodes q with
    | none => []
    | some n => if S_ISDIR n.mode then [] else (n.data.drop off).take size

/-- The call `write(out, buf, ret)`: the file system after the bytes are
appended, `none` when it does not return `ret` (the descriptor is `-1`). -/
def write (fs : FS) (fd : Option Path) (buf : Str) : Option FS :=
  match fd with
  | none => none
  | some q =>
    match fs.nodes q with
    | none => none
    | some n => some (set_node fs q { n with data := n.data ++ buf })

/-- The `while` loop of `copy`, run for at most `fuel` reads. -/
def copy_loop (fd_in fd_out : Option Path) : Nat → FS → Nat → Option FS
  | 0, _, _ => none
  | fuel + 1, fs, off =>
    let buf := read fs fd_in off 8192
    if buf = [] then some fs
    else
      match write fs fd_out buf with
      | none => none
      | some fs1 => copy_loop fd_in fd_out fuel fs1 (off + buf.length)

/-- The size of the file a descriptor refers to. -/
def size_of_fd (fs : FS) (fd : Option Path) : Nat :=
  match fd with
  | none => 0
  | some q =>
    match fs.nodes q with
    | none => 0
    | some n => n.data.length

/-- The function `copy`; `st0` is what the uninitialised `st.st_mode` holds
when `stat` fails. The loop is given one read more than the source has bytes. -/
def copy (fs : FS) (st0 : Nat) (src dest : Str) : Option FS :=
  let st_mode := match stat fs src with
    | some m => m
    | none => st0
  let fd_in := open_rdonly fs src
  let r := open_creat_trunc fs dest st_mode
  copy_loop fd_in r.2 (size_of_fd r.1 fd_in + 1) r.1 0

/-- The function `mkpath`. -/
def mkpath (fs : FS) (path : Str) (mode : Nat) : Option FS :=
  match stat fs path with
  | none => mkdir fs path mode
  | some m => if S_ISDIR m then some fs else none

/-- The text `snprintf(dest, PATH_MAX, "%s%s", pkgname, system.path)` leaves in
`dest`. -/
def archive_dest (pkgname path : Str) : Str := snprintf PATH_MAX (pkgname ++ path)

/-- The body of the `for` loop of `archive` for the offsets `ptr - dest` in
`idx`; the state is the file system and `st.st_mode`. -/
def archive_loop (dest : Str) (root : Nat) : List Nat → FS × Nat → Option (FS × Nat)
  | [], s => some s
  | i :: rest, s =>
    if dest.get? i = some '/' then
      let st_mode :=
        if i > root then
          match stat s.1 ((dest.drop root).take (i - root)) with
          | some m => m
          | none => s.2
        else s.2
      let mode := if i > root then st_mode else 0o777
      match mkpath s.1 (dest.take i) mode with
      | none => none
      | some fs1 => archive_loop dest root rest (fs1, st_mode)
    else archive_loop dest root rest s

/-- The function `archive`; `st0` and `st1` are what the uninitialised
`st.st_mode` of `archive` and of `copy` hold. `none` when the process exits, or
when `system.path` is NULL. -/
def archive (fs : FS) (st0 st1 : Nat) (backup : backup_t) : Option FS :=
  match backup.system.path with
  | none => none
  | some path =>
    let dest := archive_dest backup.pkgname path
    let root := backup.pkgname.length
    match archive_loop dest root (List.range' 1 (dest.length - 1)) (fs, st0) with
    | none => none
    | some s => copy s.1 st1 path dest

/-- The file system `fs1` is `fs` after the successful `mkdir` calls `new`:
nothing of `fs` has changed, and every node added is a directory made by one of
the calls. -/
structure extends_by (fs fs1 : FS) (new : List (Str × Nat)) : Prop where
  cwd_eq : fs1.cwd = fs.cwd
  umask_eq : fs1.umask = fs.umask
  mkdirs_eq : fs1.mkdirs = fs.mkdirs ++ new
  keeps : ∀ q n, fs.nodes q = some n → fs1.nodes q = some n
  added : ∀ q, fs.nodes q = none → fs1.nodes q ≠ none →
    (∃ pm ∈ new, resolve fs pm.1 = q) ∧ ∃ n, fs1.nodes q = some n ∧ S_ISDIR n.mode = true

/-- A file system with `/etc` (mode `0750`) and the file `/etc/sudoers` (mode
`0644`), seen from the working directory `/root` with umask `077`. Nothing is
archived yet. -/
def fs_sudo : FS :=
  { nodes := fun q =>
      if q = [] then some ⟨0o040755, []⟩
      else if q = ["etc".toList] then some ⟨0o040750, []⟩
      else if q = ["etc".toList, "sudoers".toList] then some ⟨0o100644, "secret".toList⟩
      else if q = ["root".toList] then some ⟨0o040700, []⟩
      else none
    cwd := ["root".toList]
    umask := 0o077
    mkdirs := [] }

/-- Whether a resolved path is a directory of the file system. -/
def is_dir (fs : FS) (q : Path) : Bool :=
  match fs.nodes q with
  | some n => S_ISDIR n.mode
  | none => false

/-- Where path resolution of a name starts: the root for an absolute name, the
working directory for any other. -/
def base_of (fs : FS) (p : Str) : Path :=
  if p.head? = some '/' then [] else fs.cwd

/-- The file system `fs_sudo` after an earlier pull, seen with umask `022`: the
archived copy `/root/sudo/etc/sudoers` is there with mode `0600` and the bytes
`old`, while `/etc/sudoers` has mode `0644` and the bytes `secret`. -/
def fs_sudo_archived : FS :=
  { nodes := fun q =>
      if q = [] then some ⟨0o040755, []⟩
      else if q = ["etc".toList] then some ⟨0o040750, []⟩
      else if q = ["etc".toList, "sudoers".toList] then some ⟨0o100644, "secret".toList⟩
      else if q = ["root".toList] then some ⟨0o040700, []⟩
      else if q = ["root".toList, "sudo".toList] then some ⟨0o040755, []⟩
      else if q = ["root".toList, "sudo".toList, "etc".toList] then some ⟨0o040750, []⟩
      else if q = ["root".toList, "sudo".toList, "etc".toList, "sudoers".toList] then
        some ⟨0o100600, "old".toList⟩
      else none
    cwd := ["root".toList]
    umask := 0o022
    mkdirs := [] }

/-! # Theorems -/

/-! ## The classifier returns the records of its entries -/

theorem find_body_backups (cfg : cfg_t) (colstr : strings_t) (w : World) (pkgname : Str)
    (everything : Bool) (s : find_state) (e : alpm_backup_t) :
    (find_body cfg colstr w pkgname everything s e).map (fun t => t.backups) =
      (entry_record w pkgname everything e).map (fun r => s.backups ++ r.toList) := by
  unfold find_body entry_record get_hash file_init get_hash
  by_cases ha : w.access_R_OK (system_path e.name) = false
  · simp [ha]
  · simp only [ha, if_false]
    cases hm : w.md5sum (system_path e.name) with
    | none => simp
    | some h =>
      by_cases hs : (!everything && STREQ e.hash h) = true
      · simp [hs]
      · simp only [hs, if_false]
        cases hst : w.stat (local_path pkgname e.name) with
        | none => simp
        | some mode =>
          by_cases hr : S_ISREG mode = true
          · simp only [hr, if_true]
            cases hl : w.md5sum (local_path pkgname e.name) with
            | none => simp
            | some lh => simp
          · simp [hr]

theorem find_loop_backups (cfg : cfg_t) (colstr : strings_t) (w : World) (pkgname : Str)
    (everything : Bool) (l : List alpm_backup_t) (s : find_state) :
    (find_loop cfg colstr w pkgname everything s l).map (fun t => t.backups) =
      (entry_records w pkgname everything l).map (fun rs => s.backups ++ rs) := by
  induction l generalizing s with
  | nil => simp [find_loop, entry_records]
  | cons e rest ih =>
    have hb := find_body_backups cfg colstr w pkgname everything s e
    unfold find_loop entry_records
    cases hf : find_body cfg colstr w pkgname everything s e with
    | none =>
      rw [hf] at hb
      cases hr : entry_record w pkgname everything e with
      | none => simp
      | some r => rw [hr] at hb; simp at hb
    | some s1 =>
      rw [hf] at hb
      cases hr : entry_record w pkgname everything e with
      | none => rw [hr] at hb; simp at hb
      | some r =>
        rw [hr] at hb
        simp only [Option.map_some', Option.some.injEq] at hb
        simp only [ih s1, hb]
        cases entry_records w pkgname everything rest with
        | none => simp
        | some rs => simp [List.append_assoc]

/-- The list `alpm_find_backups` returns is the concatenation of the records
of the entries. -/
theorem alpm_find_backups_backups (cfg : cfg_t) (colstr : strings_t) (w : World)
    (pkg : alpm_pkg_t) (everything : Bool) :
    (alpm_find_backups cfg colstr w pkg everything).map (fun t => t.backups) =
      entry_records w pkg.name everything pkg.backup := by
  unfold alpm_find_backups
  rw [find_loop_backups]
  cases entry_records w pkg.name everything pkg.backup <;> simp

theorem entry_records_append (w : World) (pkgname : Str) (everything : Bool)
    (l1 l2 : List alpm_backup_t) :
    entry_records w pkgname everything (l1 ++ l2) =
      match entry_records w pkgname everything l1, entry_records w pkgname everything l2 with
      | some a, some b => some (a ++ b)
      | _, _ => none := by
  induction l1 with
  | nil => cases h : entry_records w pkgname everything l2 <;> simp [entry_records, h]
  | cons e rest ih =>
    simp only [List.cons_append, entry_records]
    rw [show rest.append l2 = rest ++ l2 from rfl, ih]
    cases entry_record w pkgname everything e <;>
      cases entry_records w pkgname everything rest <;>
      cases entry_records w pkgname everything l2 <;> simp

/-- The fields of a record that an entry contributes. -/
theorem entry_record_some (w : World) (pkgname : Str) (everything : Bool)
    (e : alpm_backup_t) (b : backup_t)
    (h : entry_record w pkgname everything e = some (some b)) :
    w.access_R_OK (system_path e.name) = true ∧
    b.pkgname = pkgname ∧
    b.system.path = some (system_path e.name) ∧
    b.system.hash = w.md5sum (system_path e.name) ∧
    b.system.hash ≠ none ∧
    b.hash = e.hash ∧
    (everything = false → b.system.hash ≠ some e.hash) ∧
    (b.local.path = none ↔ regular_at w (local_path pkgname e.name) = false) ∧
    (∀ q, b.local.path = some q →
      q = local_path pkgname e.name ∧ b.local.hash = w.md5sum q ∧ b.local.hash ≠ none) := by
  unfold entry_record at h
  by_cases ha : w.access_R_OK (system_path e.name) = false
  · simp [ha] at h
  · rw [if_neg ha] at h
    have ha1 : w.access_R_OK (system_path e.name) = true := by simpa using ha
    cases hm : w.md5sum (system_path e.name) with
    | none => simp [hm] at h
    | some d =>
      simp only [hm] at h
      by_cases hs : (!everything && STREQ e.hash d) = true
      · simp [hs] at h
      · rw [if_neg hs] at h
        have hne : everything = false → ¬ d = e.hash := by
          intro hev hd
          apply hs
          simp [hev, STREQ, hd]
        cases hst : w.stat (local_path pkgname e.name) with
        | none =>
          simp only [hst, Option.some.injEq] at h
          subst h
          simpa [ha1, regular_at, hst] using hne
        | some mode =>
          simp only [hst] at h
          by_cases hr : S_ISREG mode = true
          · rw [if_pos hr] at h
            cases hl : w.md5sum (local_path pkgname e.name) with
            | none => simp [hl] at h
            | some lh =>
              simp only [hl, Option.some.injEq] at h
              subst h
              simpa [ha1, regular_at, hst, hr, hl] using hne
          · rw [if_neg hr] at h
            simp only [Option.some.injEq] at h
            subst h
            simpa [ha1, regular_at, hst, hr] using hne

theorem entry_records_mem (w : World) (pkgname : Str) (everything : Bool)
    (l : List alpm_backup_t) (bs : List backup_t)
    (h : entry_records w pkgname everything l = some bs) (b : backup_t) :
    b ∈ bs ↔ ∃ e ∈ l, entry_record w pkgname everything e = some (some b) := by
  induction l generalizing bs with
  | nil =>
    simp only [entry_records, Option.some.injEq] at h
    subst h
    simp
  | cons e rest ih =>
    unfold entry_records at h
    cases hr : entry_record w pkgname everything e with
    | none => simp [hr] at h
    | some r =>
      cases hrs : entry_records w pkgname everything rest with
      | none => simp [hr, hrs] at h
      | some rs =>
        simp only [hr, hrs, Option.some.injEq] at h
        subst h
        have := ih rs hrs
        cases r with
        | none => simp [this, hr]
        | some r0 =>
          simp only [Option.toList_some, List.singleton_append, List.mem_cons, this,
            exists_eq_or_imp, hr, Option.some.injEq]
          constructor
          · rintro (h1 | h1)
            · exact Or.inl h1.symm
            · exact Or.inr h1
          · rintro (h1 | h1)
            · exact Or.inl h1.symm
            · exact Or.inr h1

theorem entry_records_returns (w : World) (pkgname : Str) (everything : Bool)
    (l : List alpm_backup_t)
    (h : ∀ e ∈ l, entry_record w pkgname everything e ≠ none) :
    ∃ bs, entry_records w pkgname everything l = some bs := by
  induction l with
  | nil => exact ⟨[], rfl⟩
  | cons e rest ih =>
    obtain ⟨rs, hrs⟩ := ih (fun x hx => h x (List.mem_cons_of_mem _ hx))
    cases hr : entry_record w pkgname everything e with
    | none => exact absurd hr (h e (List.mem_cons_self _ _))
    | some r => exact ⟨r.toList ++ rs, by simp [entry_records, hr, hrs]⟩

theorem entry_records_each (w : World) (pkgname : Str) (everything : Bool)
    (l : List alpm_backup_t) (bs : List backup_t)
    (h : entry_records w pkgname everything l = some bs) :
    ∀ e ∈ l, ∃ r, entry_record w pkgname everything e = some r := by
  induction l generalizing bs with
  | nil => simp
  | cons e rest ih =>
    unfold entry_records at h
    cases hr : entry_record w pkgname everything e with
    | none => simp [hr] at h
    | some r =>
      cases hrs : entry_records w pkgname everything rest with
      | none => simp [hr, hrs] at h
      | some rs =>
        intro x hx
        rcases List.mem_cons.mp hx with hx | hx
        · exact ⟨r, by rw [hx, hr]⟩
        · exact ih rs hrs x hx

/-- An entry is skipped only when it is unreadable, or unmodified with the flag
cleared. -/
theorem entry_record_skip (w : World) (pkgname : Str) (everything : Bool)
    (e : alpm_backup_t) (h : entry_record w pkgname everything e = some none) :
    w.access_R_OK (system_path e.name) = false ∨
      (everything = false ∧ w.md5sum (system_path e.name) = some e.hash) := by
  unfold entry_record at h
  by_cases ha : w.access_R_OK (system_path e.name) = false
  · exact Or.inl ha
  · rw [if_neg ha] at h
    cases hm : w.md5sum (system_path e.name) with
    | none => simp [hm] at h
    | some d =>
      simp only [hm] at h
      by_cases hs : (!everything && STREQ e.hash d) = true
      · right
        simp only [STREQ, Bool.and_eq_true, Bool.not_eq_true', decide_eq_true_eq] at hs
        exact ⟨hs.1, by rw [hs.2]⟩
      · rw [if_neg hs] at h
        cases hst : w.stat (local_path pkgname e.name) with
        | none => simp [hst] at h
        | some mode =>
          simp only [hst] at h
          by_cases hr : S_ISREG mode = true
          · rw [if_pos hr] at h
            cases hl : w.md5sum (local_path pkgname e.name) <;> simp [hl] at h
          · rw [if_neg hr] at h
            simp at h

/-- An entry makes the process exit only when a digest cannot be computed: of
the readable tracked file, or of the regular file found as its local copy. -/
theorem entry_record_exit (w : World) (pkgname : Str) (everything : Bool)
    (e : alpm_backup_t) (h : entry_record w pkgname everything e = none) :
    (w.access_R_OK (system_path e.name) = true ∧ w.md5sum (system_path e.name) = none) ∨
      (regular_at w (local_path pkgname e.name) = true ∧
        w.md5sum (local_path pkgname e.name) = none) := by
  unfold entry_record at h
  by_cases ha : w.access_R_OK (system_path e.name) = false
  · simp [ha] at h
  · rw [if_neg ha] at h
    cases hm : w.md5sum (system_path e.name) with
    | none => exact Or.inl ⟨by simpa using ha, rfl⟩
    | some d =>
      simp only [hm] at h
      by_cases hs : (!everything && STREQ e.hash d) = true
      · simp [hs] at h
      · rw [if_neg hs] at h
        cases hst : w.stat (local_path pkgname e.name) with
        | none => simp [hst] at h
        | some mode =>
          simp only [hst] at h
          by_cases hr : S_ISREG mode = true
          · rw [if_pos hr] at h
            cases hl : w.md5sum (local_path pkgname e.name) with
            | none => exact Or.inr ⟨by simp [regular_at, hst, hr], rfl⟩
            | some lh => simp [hl] at h
          · rw [if_neg hr] at h
            simp at h

theorem entry_records_countP (w : World) (pkgname : Str) (everything : Bool) (p : Str)
    (l : List alpm_backup_t) (bs : List backup_t)
    (h : entry_records w pkgname everything l = some bs) :
    bs.countP (fun b => decide (b.system.path = some p)) =
      l.countP (fun e => decide (system_path e.name = p) &&
        produces w pkgname everything e) := by
  induction l generalizing bs with
  | nil =>
    simp only [entry_records, Option.some.injEq] at h
    subst h
    rfl
  | cons e rest ih =>
    unfold entry_records at h
    cases hr : entry_record w pkgname everything e with
    | none => simp [hr] at h
    | some r =>
      cases hrs : entry_records w pkgname everything rest with
      | none => simp [hr, hrs] at h
      | some rs =>
        simp only [hr, hrs, Option.some.injEq] at h
        subst h
        rw [List.countP_append, List.countP_cons, ih rs hrs]
        cases r with
        | none => simp [produces, hr]
        | some b =>
          have hp := (entry_record_some w pkgname everything e b hr).2.2.1
          simp only [Option.toList_some, List.countP_cons, List.countP_nil, hp,
            Option.some.injEq, produces, hr, Bool.and_true, zero_add]
          omega

theorem system_path_length (name : Str) : (system_path name).length ≤ PATH_MAX - 1 := by
  simp [system_path, snprintf, List.length_take]

theorem system_path_of_literal (name name1 : Str)
    (h : system_path name1 = PACMAN_ROOT ++ name) : system_path name = system_path name1 := by
  have h1 : system_path name = (system_path name1).take (PATH_MAX - 1) := by
    rw [h]; rfl
  rw [h1]
  simp [system_path, snprintf, List.take_take]

theorem system_path_short (name : Str) (h : name.length + 1 < PATH_MAX) :
    system_path name = PACMAN_ROOT ++ name := by
  unfold system_path snprintf
  apply List.take_of_length_le
  simp only [PACMAN_ROOT, List.length_append, PATH_MAX] at *
  simp only [String.toList, List.length_cons, List.length_nil]
  omega

/-! ## C1: unmodified files are left out -/

/-- C1 (as amended): with `everything = 0`, for a tracked-file entry that is
readable and whose on-disk digest equals its recorded digest, and provided every
entry of the package that resolves to the same path records the same digest,
the returned list has no record whose `system.path` is the path of the entry
(`PACMAN_ROOT` followed by the name, as `snprintf` leaves it in the buffer, and
also the uncut text). -/
theorem C1_unmodified_excluded (cfg : cfg_t) (colstr : strings_t) (w : World)
    (pkg : alpm_pkg_t) (e : alpm_backup_t) (s : find_state)
    (he : e ∈ pkg.backup)
    (hacc : w.access_R_OK (system_path e.name) = true)
    (hdig : w.md5sum (system_path e.name) = some e.hash)
    (hsame : ∀ e1 ∈ pkg.backup, system_path e1.name = system_path e.name → e1.hash = e.hash)
    (hs : alpm_find_backups cfg colstr w pkg false = some s) :
    ∀ b ∈ s.backups, b.system.path ≠ some (system_path e.name) ∧
      b.system.path ≠ some (PACMAN_ROOT ++ e.name) := by
  intro b hb
  have hrec := alpm_find_backups_backups cfg colstr w pkg false
  rw [hs] at hrec
  obtain ⟨e1, he1, hr1⟩ := (entry_records_mem w pkg.name false pkg.backup s.backups
    hrec.symm b).mp hb
  obtain ⟨_, _, hp, hh, _, _, hne, _⟩ := entry_record_some w pkg.name false e1 b hr1
  have key : system_path e1.name ≠ system_path e.name := by
    intro heq
    apply hne rfl
    rw [hh, heq, hdig, hsame e1 he1 heq]
  constructor
  · rw [hp]
    intro h
    exact key (Option.some.inj h)
  · rw [hp]
    intro h
    exact key (system_path_of_literal e.name e1.name (Option.some.inj h)).symm

/-- Witness of C1: `etc/sudoers` of `pkg_plain` is readable and unmodified on
`world_D0`; the one record returned, for `etc/pam.d/sudo`, is not at its path. -/
theorem C1_unmodified_excluded_witness :
    decide ((some "/etc/pam.d/sudo".toList : Option Str) =
      some (system_path "etc/sudoers".toList)) = false :=
  decide_eq_false (C1_unmodified_excluded cfg_default (strings_init cfg_default) world_D0
    pkg_plain ⟨"etc/sudoers".toList, "D0".toList⟩ state_plain
    (by decide) (by decide) (by decide) (by decide) (by decide)
    { pkgname := "sudo".toList
      system := ⟨some "/etc/pam.d/sudo".toList, some "D0".toList⟩
      «local» := ⟨none, none⟩
      hash := "D1".toList }
    (by decide)).1

/-- Counterexample to C1 as stated: `pkg_two_digests` lists `etc/sudoers` twice;
the first entry is readable and its on-disk digest `D0` equals its recorded
digest, yet with `everything = 0` the returned list holds a record whose
`system.path` is `/etc/sudoers`, the one of the second entry. -/
theorem C1_counterexample :
    (⟨"etc/sudoers".toList, "D0".toList⟩ : alpm_backup_t) ∈ pkg_two_digests.backup ∧
    world_D0.access_R_OK (system_path "etc/sudoers".toList) = true ∧
    world_D0.md5sum (system_path "etc/sudoers".toList) = some "D0".toList ∧
    (alpm_find_backups cfg_default (strings_init cfg_default) world_D0 pkg_two_digests
        false).map (fun s => s.backups.map (fun b => b.system.path)) =
      some [some (PACMAN_ROOT ++ "etc/sudoers".toList)] := by
  decide

/-! ## C2: modified files are reported -/

theorem countP_one_unique {α : Type} (q : α → Bool) (l : List α) (h : l.countP q = 1)
    (x y : α) (hx : x ∈ l) (hy : y ∈ l) (qx : q x = true) (qy : q y = true) : x = y := by
  induction l with
  | nil => simp at hx
  | cons a rest ih =>
    rw [List.countP_cons] at h
    by_cases qa : q a = true
    · have h0 : rest.countP q = 0 := by simpa [qa] using h
      have hnone : ∀ z ∈ rest, ¬ q z = true := List.countP_eq_zero.mp h0
      have hxa : x = a := by
        rcases List.mem_cons.mp hx with h1 | h1
        · exact h1
        · exact absurd qx (hnone x h1)
      have hya : y = a := by
        rcases List.mem_cons.mp hy with h1 | h1
        · exact h1
        · exact absurd qy (hnone y h1)
      rw [hxa, hya]
    · have h1 : rest.countP q = 1 := by simpa [qa] using h
      have hxr : x ∈ rest := by
        rcases List.mem_cons.mp hx with h2 | h2
        · rw [h2] at qx; exact absurd qx qa
        · exact h2
      have hyr : y ∈ rest := by
        rcases List.mem_cons.mp hy with h2 | h2
        · rw [h2] at qy; exact absurd qy qa
        · exact h2
      exact ih h1 hxr hyr

/-- The classifier returns when every digest it asks for can be computed. -/
theorem alpm_find_backups_returns (cfg : cfg_t) (colstr : strings_t) (w : World)
    (pkg : alpm_pkg_t) (everything : Bool)
    (hsys : ∀ e ∈ pkg.backup, w.access_R_OK (system_path e.name) = true →
      w.md5sum (system_path e.name) ≠ none)
    (hloc : ∀ e ∈ pkg.backup, regular_at w (local_path pkg.name e.name) = true →
      w.md5sum (local_path pkg.name e.name) ≠ none) :
    ∃ s, alpm_find_backups cfg colstr w pkg everything = some s := by
  obtain ⟨bs, hbs⟩ := entry_records_returns w pkg.name everything pkg.backup (by
    intro e he hnone
    rcases entry_record_exit w pkg.name everything e hnone with ⟨h1, h2⟩ | ⟨h1, h2⟩
    · exact hsys e he h1 h2
    · exact hloc e he h1 h2)
  have hrec := alpm_find_backups_backups cfg colstr w pkg everything
  rw [hbs] at hrec
  cases hf : alpm_find_backups cfg colstr w pkg everything with
  | none => rw [hf] at hrec; simp at hrec
  | some s => exact ⟨s, rfl⟩

/-- C2 (as amended): for a tracked-file entry that is readable and whose on-disk
digest `d` differs from its recorded digest, and provided no other entry of the
package resolves to the same path, the list returned for either value of
`everything` has exactly one record with `system.path` the path of the entry
(`PACMAN_ROOT` followed by the name, as `snprintf` leaves it in the buffer: the
whole text when it fits); that record has `system.hash = d`, `hash` the recorded
digest and the name of the package; and the function does return when every
digest it asks for can be computed. -/
theorem C2_modified_included (cfg : cfg_t) (colstr : strings_t) (w : World)
    (pkg : alpm_pkg_t) (e : alpm_backup_t) (d : Str) (everything : Bool)
    (he : e ∈ pkg.backup)
    (hacc : w.access_R_OK (system_path e.name) = true)
    (hdig : w.md5sum (system_path e.name) = some d)
    (hmod : d ≠ e.hash)
    (huniq : pkg.backup.countP (fun e1 => decide (system_path e1.name = system_path e.name)) = 1) :
    (∀ s, alpm_find_backups cfg colstr w pkg everything = some s →
      s.backups.countP (fun b => decide (b.system.path = some (system_path e.name))) = 1 ∧
      ∀ b ∈ s.backups, b.system.path = some (system_path e.name) →
        b.system.hash = some d ∧ b.hash = e.hash ∧ b.pkgname = pkg.name) ∧
    (e.name.length + 1 < PATH_MAX → system_path e.name = PACMAN_ROOT ++ e.name) ∧
    ((∀ e1 ∈ pkg.backup, w.access_R_OK (system_path e1.name) = true →
        w.md5sum (system_path e1.name) ≠ none) →
      (∀ e1 ∈ pkg.backup, regular_at w (local_path pkg.name e1.name) = true →
        w.md5sum (local_path pkg.name e1.name) ≠ none) →
      ∃ s, alpm_find_backups cfg colstr w pkg everything = some s) := by
  refine ⟨?_, system_path_short e.name, alpm_find_backups_returns cfg colstr w pkg everything⟩
  intro s hs
  have hrec := alpm_find_backups_backups cfg colstr w pkg everything
  rw [hs] at hrec
  have hrec1 : entry_records w pkg.name everything pkg.backup = some s.backups := hrec.symm
  constructor
  · rw [entry_records_countP w pkg.name everything (system_path e.name) pkg.backup
      s.backups hrec1]
    have hprod : produces w pkg.name everything e = true := by
      obtain ⟨r, hr⟩ := entry_records_each w pkg.name everything pkg.backup s.backups hrec1 e he
      cases r with
      | none =>
        rcases entry_record_skip w pkg.name everything e hr with h1 | ⟨_, h1⟩
        · rw [hacc] at h1; exact absurd h1 (by decide)
        · rw [hdig] at h1; exact absurd (Option.some.inj h1) hmod
      | some b => simp [produces, hr]
    apply le_antisymm
    · rw [← huniq]
      apply List.countP_mono_left
      intro x _ hx
      simp only [Bool.and_eq_true, decide_eq_true_eq] at hx
      simpa using hx.1
    · apply List.countP_pos_iff.mpr
      exact ⟨e, he, by simp [hprod]⟩
  · intro b hb hpath
    obtain ⟨e1, he1, hr1⟩ := (entry_records_mem w pkg.name everything pkg.backup s.backups
      hrec1 b).mp hb
    obtain ⟨_, hn, hp, hh, _, hrh, _, _⟩ := entry_record_some w pkg.name everything e1 b hr1
    have hsp : system_path e1.name = system_path e.name := by
      rw [hp] at hpath; exact Option.some.inj hpath
    have hee : e1 = e := countP_one_unique _ pkg.backup huniq e1 e he1 he (by simpa using hsp)
      (by simp)
    refine ⟨?_, ?_, hn⟩
    · rw [hh, hsp, hdig]
    · rw [hrh, hee]

/-- Witness of C2: `etc/pam.d/sudo` of `pkg_plain` is readable on `world_D0`
and its digest `D0` differs from the recorded `D1`. -/
theorem C2_modified_included_witness :
    state_plain.backups.countP
      (fun b => decide (b.system.path = some (system_path "etc/pam.d/sudo".toList))) = 1 :=
  ((C2_modified_included cfg_default (strings_init cfg_default) world_D0 pkg_plain
    ⟨"etc/pam.d/sudo".toList, "D1".toList⟩ "D0".toList false
    (by decide) (by decide) (by decide) (by decide) (by decide)).1 state_plain (by decide)).1

/-- Counterexample to C2 as stated: `pkg_listed_twice` lists `etc/fstab` twice;
the file is readable and its on-disk digest `D0` differs from the recorded `D7`,
and the returned list holds two records for `/etc/fstab`, for both values of
`everything`. -/
theorem C2_counterexample :
    (⟨"etc/fstab".toList, "D7".toList⟩ : alpm_backup_t) ∈ pkg_listed_twice.backup ∧
    world_D0.access_R_OK (system_path "etc/fstab".toList) = true ∧
    world_D0.md5sum (system_path "etc/fstab".toList) = some "D0".toList ∧
    "D0".toList ≠ "D7".toList ∧
    (alpm_find_backups cfg_default (strings_init cfg_default) world_D0 pkg_listed_twice
        false).map (fun s => s.backups.countP
          (fun b => decide (b.system.path = some (PACMAN_ROOT ++ "etc/fstab".toList)))) =
      some 2 ∧
    (alpm_find_backups cfg_default (strings_init cfg_default) world_D0 pkg_listed_twice
        true).map (fun s => s.backups.countP
          (fun b => decide (b.system.path = some (PACMAN_ROOT ++ "etc/fstab".toList)))) =
      some 2 := by
  decide

/-! ## C3: the local snapshot of a record -/

theorem system_path_ne_nil (name : Str) : system_path name ≠ [] := by
  simp [system_path, snprintf, PACMAN_ROOT, PATH_MAX, String.toList]

theorem local_path_short (pkgname name : Str)
    (h : pkgname.length + 1 + name.length < PATH_MAX) :
    local_path pkgname name = pkgname ++ '/' :: name := by
  unfold local_path snprintf
  apply List.take_of_length_le
  simp only [List.length_append, List.length_cons, PATH_MAX] at *
  omega

/-- C3: every record `alpm_find_backups` returns comes from an entry of the
package; its `system.path` is set and non-empty; its `local.path` is NULL if and
only if `stat` finds no regular file at the candidate path `<pkgname>/<name>`
(as `snprintf` leaves it in the buffer: the whole text when it fits); and when
`local.path` is set it is that candidate path and `local.hash` is the digest of
the file there. -/
theorem C3_local_snapshot (cfg : cfg_t) (colstr : strings_t) (w : World)
    (pkg : alpm_pkg_t) (everything : Bool) (s : find_state)
    (hs : alpm_find_backups cfg colstr w pkg everything = some s) (b : backup_t)
    (hb : b ∈ s.backups) :
    ∃ e ∈ pkg.backup,
      b.system.path = some (system_path e.name) ∧ system_path e.name ≠ [] ∧
      (b.local.path = none ↔ regular_at w (local_path pkg.name e.name) = false) ∧
      (∀ q, b.local.path = some q →
        q = local_path pkg.name e.name ∧ b.local.hash = w.md5sum q ∧ b.local.hash ≠ none) ∧
      (pkg.name.length + 1 + e.name.length < PATH_MAX →
        local_path pkg.name e.name = pkg.name ++ '/' :: e.name) := by
  have hrec := alpm_find_backups_backups cfg colstr w pkg everything
  rw [hs] at hrec
  obtain ⟨e, he, hr⟩ := (entry_records_mem w pkg.name everything pkg.backup s.backups
    hrec.symm b).mp hb
  obtain ⟨_, _, hp, _, _, _, _, hl, hq⟩ := entry_record_some w pkg.name everything e b hr
  exact ⟨e, he, hp, system_path_ne_nil e.name, hl, hq, local_path_short pkg.name e.name⟩

/-- Witness of C3: the record of `etc/sudoers`, which has an archived copy. -/
theorem C3_local_snapshot_witness :
    ∃ e ∈ pkg_tracked.backup,
      record_sudoers.system.path = some (system_path e.name) ∧ system_path e.name ≠ [] ∧
      (record_sudoers.local.path = none ↔
        regular_at world_tracked (local_path pkg_tracked.name e.name) = false) ∧
      (∀ q, record_sudoers.local.path = some q →
        q = local_path pkg_tracked.name e.name ∧
          record_sudoers.local.hash = world_tracked.md5sum q ∧
          record_sudoers.local.hash ≠ none) ∧
      (pkg_tracked.name.length + 1 + e.name.length < PATH_MAX →
        local_path pkg_tracked.name e.name = pkg_tracked.name ++ '/' :: e.name) :=
  C3_local_snapshot cfg_default (strings_init cfg_default) world_tracked pkg_tracked false
    { backups := [record_sudoers, record_pam]
      err := ("warning: pacnew file detected /etc/sudoers\n" ++
        "warning: pacsave file detected /etc/sudoers\n" ++
        "warning: pacorig file detected /etc/sudoers\n" ++
        "warning: can't access /etc/shadow\n" ++
        "warning: pacnew file detected /etc/pam.d/sudo\n" ++
        "warning: pacsave file detected /etc/pam.d/sudo\n" ++
        "warning: pacorig file detected /etc/pam.d/sudo\n").toList }
    (by decide) record_sudoers (by decide)

/-! ## C9: unreadable files are skipped -/

theorem entry_records_filter_readable (w : World) (pkgname : Str) (everything : Bool)
    (l : List alpm_backup_t) :
    entry_records w pkgname everything l =
      entry_records w pkgname everything
        (l.filter (fun e => w.access_R_OK (system_path e.name))) := by
  induction l with
  | nil => rfl
  | cons e rest ih =>
    by_cases ha : w.access_R_OK (system_path e.name) = true
    · have hf : (e :: rest).filter (fun e => w.access_R_OK (system_path e.name)) =
          e :: rest.filter (fun e => w.access_R_OK (system_path e.name)) := by
        simp [List.filter_cons, ha]
      rw [hf]
      simp only [entry_records, ← ih]
    · have hf : (e :: rest).filter (fun e => w.access_R_OK (system_path e.name)) =
          rest.filter (fun e => w.access_R_OK (system_path e.name)) := by
        simp [List.filter_cons, ha]
      rw [hf]
      have hskip : entry_record w pkgname everything e = some none := by
        unfold entry_record
        rw [if_pos (by simpa using ha)]
      simp only [entry_records, hskip, ← ih]
      cases entry_records w pkgname everything rest <;> simp

/-- C9: the records `alpm_find_backups` returns are, in the same order, those
it returns for the package with every unreadable entry removed from its backup
list (and it exits on the one exactly when it exits on the other); and a list it
returns has no record at the path of an unreadable entry, for both values of
`everything`. -/
theorem C9_unreadable_skipped (cfg : cfg_t) (colstr : strings_t) (w : World)
    (pkg : alpm_pkg_t) (everything : Bool) :
    (alpm_find_backups cfg colstr w pkg everything).map (fun s => s.backups) =
      (alpm_find_backups cfg colstr w
        { name := pkg.name
          backup := pkg.backup.filter (fun e => w.access_R_OK (system_path e.name)) }
        everything).map (fun s => s.backups) ∧
    ∀ s, alpm_find_backups cfg colstr w pkg everything = some s →
      ∀ e ∈ pkg.backup, w.access_R_OK (system_path e.name) = false →
        ∀ b ∈ s.backups, b.system.path ≠ some (system_path e.name) := by
  constructor
  · rw [alpm_find_backups_backups, alpm_find_backups_backups]
    exact entry_records_filter_readable w pkg.name everything pkg.backup
  · intro s hs e _ hacc b hb hpath
    have hrec := alpm_find_backups_backups cfg colstr w pkg everything
    rw [hs] at hrec
    obtain ⟨e1, _, hr1⟩ := (entry_records_mem w pkg.name everything pkg.backup s.backups
      hrec.symm b).mp hb
    obtain ⟨ha1, _, hp, _⟩ := entry_record_some w pkg.name everything e1 b hr1
    rw [hp] at hpath
    rw [Option.some.inj hpath, hacc] at ha1
    exact absurd ha1 (by decide)

/-! ## C10: sibling artifacts only produce warnings -/

theorem check_pacfiles_bits (w : World) (f : Str) :
    (check_pacfiles w f &&& CONF_PACNEW ≠ 0 ↔
      w.access_R_OK (snprintf PATH_MAX (f ++ ".pacnew".toList)) = true) ∧
    (check_pacfiles w f &&& CONF_PACSAVE ≠ 0 ↔
      w.access_R_OK (snprintf PATH_MAX (f ++ ".pacsave".toList)) = true) ∧
    (check_pacfiles w f &&& CONF_PACORIG ≠ 0 ↔
      w.access_R_OK (snprintf PATH_MAX (f ++ ".pacorig".toList)) = true) := by
  unfold check_pacfiles
  cases w.access_R_OK (snprintf PATH_MAX (f ++ ".pacnew".toList)) <;>
  cases w.access_R_OK (snprintf PATH_MAX (f ++ ".pacsave".toList)) <;>
  cases w.access_R_OK (snprintf PATH_MAX (f ++ ".pacorig".toList)) <;> decide

theorem pacnew_warning_text (cfg : cfg_t) (h : cfg.logmask &&& LOG_WARN ≠ 0) (path : Str) :
    cwr_fprintf cfg (strings_init cfg) LOG_WARN "pacnew file detected %s\n".toList [path] =
      (strings_init cfg).warn ++ " pacnew file detected ".toList ++ path ++ "\n".toList := by
  unfold cwr_fprintf cwr_vfprintf
  rw [if_neg h]
  unfold strings_init
  by_cases hc : cfg.color > 0
  · rw [if_pos hc]; rfl
  · rw [if_neg hc]; rfl

theorem pacsave_warning_text (cfg : cfg_t) (h : cfg.logmask &&& LOG_WARN ≠ 0) (path : Str) :
    cwr_fprintf cfg (strings_init cfg) LOG_WARN "pacsave file detected %s\n".toList [path] =
      (strings_init cfg).warn ++ " pacsave file detected ".toList ++ path ++ "\n".toList := by
  unfold cwr_fprintf cwr_vfprintf
  rw [if_neg h]
  unfold strings_init
  by_cases hc : cfg.color > 0
  · rw [if_pos hc]; rfl
  · rw [if_neg hc]; rfl

theorem pacorig_warning_text (cfg : cfg_t) (h : cfg.logmask &&& LOG_WARN ≠ 0) (path : Str) :
    cwr_fprintf cfg (strings_init cfg) LOG_WARN "pacorig file detected %s\n".toList [path] =
      (strings_init cfg).warn ++ " pacorig file detected ".toList ++ path ++ "\n".toList := by
  unfold cwr_fprintf cwr_vfprintf
  rw [if_neg h]
  unfold strings_init
  by_cases hc : cfg.color > 0
  · rw [if_pos hc]; rfl
  · rw [if_neg hc]; rfl

theorem warning_texts (cfg : cfg_t) (h : cfg.logmask &&& LOG_WARN ≠ 0) (path : Str) :
    cwr_fprintf cfg (strings_init cfg) LOG_WARN "pacnew file detected %s\n".toList [path] =
      (strings_init cfg).warn ++ " pacnew file detected ".toList ++ path ++ "\n".toList ∧
    cwr_fprintf cfg (strings_init cfg) LOG_WARN "pacsave file detected %s\n".toList [path] =
      (strings_init cfg).warn ++ " pacsave file detected ".toList ++ path ++ "\n".toList ∧
    cwr_fprintf cfg (strings_init cfg) LOG_WARN "pacorig file detected %s\n".toList [path] =
      (strings_init cfg).warn ++ " pacorig file detected ".toList ++ path ++ "\n".toList :=
  ⟨pacnew_warning_text cfg h path, pacsave_warning_text cfg h path,
    pacorig_warning_text cfg h path⟩

/-- The record of an entry depends on the machine only through the tracked file
and the candidate local copy. -/
theorem entry_record_congr (w1 w2 : World) (pkgname : Str) (everything : Bool)
    (e : alpm_backup_t)
    (ha : w1.access_R_OK (system_path e.name) = w2.access_R_OK (system_path e.name))
    (hm : w1.md5sum (system_path e.name) = w2.md5sum (system_path e.name))
    (hst : w1.stat (local_path pkgname e.name) = w2.stat (local_path pkgname e.name))
    (hml : w1.md5sum (local_path pkgname e.name) = w2.md5sum (local_path pkgname e.name)) :
    entry_record w1 pkgname everything e = entry_record w2 pkgname everything e := by
  unfold entry_record
  rw [ha, hm, hst, hml]

theorem entry_records_congr (w1 w2 : World) (pkgname : Str) (everything : Bool)
    (l : List alpm_backup_t)
    (h : ∀ e ∈ l, entry_record w1 pkgname everything e = entry_record w2 pkgname everything e) :
    entry_records w1 pkgname everything l = entry_records w2 pkgname everything l := by
  induction l with
  | nil => rfl
  | cons e rest ih =>
    simp only [entry_records, h e (List.mem_cons_self _ _),
      ih (fun x hx => h x (List.mem_cons_of_mem _ hx))]

/-! ## The warnings of an iteration -/

theorem find_body_readable (cfg : cfg_t) (colstr : strings_t) (w : World) (pkgname : Str)
    (everything : Bool) (s : find_state) (e : alpm_backup_t)
    (hacc : w.access_R_OK (system_path e.name) = true) :
    find_body cfg colstr w pkgname everything s e =
      find_classify cfg colstr w pkgname everything s e
        (sibling_checks cfg colstr w (system_path e.name) s.err) := by
  unfold find_body
  rw [if_neg (by simp [hacc])]
  rfl

theorem sibling_checks_text (cfg : cfg_t) (w : World) (path err : Str)
    (hlog : cfg.logmask &&& LOG_WARN ≠ 0) :
    sibling_checks cfg (strings_init cfg) w path err =
      err ++ sibling_warning cfg w path "pacnew".toList
        ++ sibling_warning cfg w path "pacsave".toList
        ++ sibling_warning cfg w path "pacorig".toList := by
  obtain ⟨b1, b2, b3⟩ := check_pacfiles_bits w path
  obtain ⟨t1, t2, t3⟩ := warning_texts cfg hlog path
  unfold sibling_checks sibling_warning
  simp only [t1, t2, t3]
  have e1 : ('.' :: "pacnew".toList) = ".pacnew".toList := rfl
  have e2 : ('.' :: "pacsave".toList) = ".pacsave".toList := rfl
  have e3 : ('.' :: "pacorig".toList) = ".pacorig".toList := rfl
  simp only [e1, e2, e3]
  by_cases c1 : check_pacfiles w path &&& CONF_PACNEW ≠ 0 <;>
  by_cases c2 : check_pacfiles w path &&& CONF_PACSAVE ≠ 0 <;>
  by_cases c3 : check_pacfiles w path &&& CONF_PACORIG ≠ 0
  all_goals
    have a1 := c1
    have a2 := c2
    have a3 := c3
    rw [b1] at a1
    rw [b2] at a2
    rw [b3] at a3
    first
      | simp only [if_pos c1, if_pos a1]
      | simp only [if_neg c1, if_neg a1]
    first
      | simp only [if_pos c2, if_pos a2]
      | simp only [if_neg c2, if_neg a2]
    first
      | simp only [if_pos c3, if_pos a3]
      | simp only [if_neg c3, if_neg a3]
    try simp only [List.append_nil]
    try rfl

/-- What an iteration writes after the sibling checks comes after their text. -/
theorem find_classify_err (cfg : cfg_t) (colstr : strings_t) (w : World) (pkgname : Str)
    (everything : Bool) (s s1 : find_state) (e : alpm_backup_t) (err : Str)
    (h : find_classify cfg colstr w pkgname everything s e err = some s1) :
    ∃ rest, s1.err = err ++ rest := by
  unfold find_classify get_hash file_init get_hash at h
  simp only at h
  cases hm : w.md5sum (system_path e.name) with
  | none => simp [hm] at h
  | some d =>
    simp only [hm] at h
    by_cases hs : (!everything && STREQ e.hash d) = true
    · rw [if_pos hs] at h
      simp only [Option.some.injEq] at h
      subst h
      exact ⟨[], by simp⟩
    · rw [if_neg hs] at h
      cases hst : w.stat (local_path pkgname e.name) with
      | none =>
        simp only [hst, Option.some.injEq] at h
        subst h
        exact ⟨_, rfl⟩
      | some mode =>
        simp only [hst] at h
        by_cases hr : S_ISREG mode = true
        · rw [if_pos hr] at h
          cases hl : w.md5sum (local_path pkgname e.name) with
          | none => simp [hl] at h
          | some lh =>
            simp only [hl, Option.some.injEq] at h
            subst h
            exact ⟨cwr_fprintf cfg colstr LOG_DEBUG "found backup: %s\n".toList
                [system_path e.name] ++
              cwr_fprintf cfg colstr LOG_DEBUG "found local copy: %s\n".toList
                [local_path pkgname e.name], by simp only [List.append_assoc]⟩
        · rw [if_neg hr] at h
          simp only [Option.some.injEq] at h
          subst h
          exact ⟨_, rfl⟩

/-- On a readable, unmodified tracked file an iteration of the loop with
`everything = 0` adds no record and writes one warning for each readable
sibling, in the order pacnew, pacsave, pacorig. -/
theorem find_body_unmodified (cfg : cfg_t) (w : World) (pkgname : Str) (s : find_state)
    (e : alpm_backup_t) (hlog : cfg.logmask &&& LOG_WARN ≠ 0)
    (hacc : w.access_R_OK (system_path e.name) = true)
    (hdig : w.md5sum (system_path e.name) = some e.hash) :
    find_body cfg (strings_init cfg) w pkgname false s e =
      some { backups := s.backups
             err := s.err ++ sibling_warning cfg w (system_path e.name) "pacnew".toList
               ++ sibling_warning cfg w (system_path e.name) "pacsave".toList
               ++ sibling_warning cfg w (system_path e.name) "pacorig".toList } := by
  obtain ⟨b1, b2, b3⟩ := check_pacfiles_bits w (system_path e.name)
  obtain ⟨t1, t2, t3⟩ := warning_texts cfg hlog (system_path e.name)
  unfold find_body
  rw [if_neg (by simp [hacc])]
  simp only [get_hash, hdig, t1, t2, t3]
  have hstr : (!false && STREQ e.hash e.hash) = true := by simp [STREQ]
  rw [if_pos hstr]
  unfold sibling_warning
  have e1 : ('.' :: "pacnew".toList) = ".pacnew".toList := rfl
  have e2 : ('.' :: "pacsave".toList) = ".pacsave".toList := rfl
  have e3 : ('.' :: "pacorig".toList) = ".pacorig".toList := rfl
  simp only [e1, e2, e3]
  by_cases c1 : check_pacfiles w (system_path e.name) &&& CONF_PACNEW ≠ 0 <;>
  by_cases c2 : check_pacfiles w (system_path e.name) &&& CONF_PACSAVE ≠ 0 <;>
  by_cases c3 : check_pacfiles w (system_path e.name) &&& CONF_PACORIG ≠ 0
  all_goals
    have a1 := c1
    have a2 := c2
    have a3 := c3
    rw [b1] at a1
    rw [b2] at a2
    rw [b3] at a3
    first
      | simp only [if_pos c1, if_pos a1]
      | simp only [if_neg c1, if_neg a1]
    first
      | simp only [if_pos c2, if_pos a2]
      | simp only [if_neg c2, if_neg a2]
    first
      | simp only [if_pos c3, if_pos a3]
      | simp only [if_neg c3, if_neg a3]
    try simp only [List.append_nil]
    try rfl

/-- C10 (as amended): for two machines that agree on `access`, the digest and
`stat` of every path that is not a `.pacnew`, `.pacsave` or `.pacorig` sibling
of a tracked file, and provided no such sibling path is itself the path of a
tracked file of the package or of a candidate local copy, `alpm_find_backups`
returns the same records for either value of `everything` (and exits on the
one machine exactly when it exits on the other); the three siblings are three
separate bits of the result of `check_pacfiles`, each set exactly when that
sibling is readable; with warnings enabled, an iteration on a readable tracked
file writes one warning line `<warn> <kind> file detected <path>` for each
readable sibling before anything else; and on a readable, unmodified tracked
file an iteration with `everything = 0` writes these warnings and adds no
record. -/
theorem C10_siblings_informational (cfg : cfg_t) (colstr : strings_t) (w1 w2 : World)
    (pkg : alpm_pkg_t) (everything : Bool)
    (hdiff : ∀ q, (∀ e ∈ pkg.backup, q ∉ pacfile_paths (system_path e.name)) →
      w1.access_R_OK q = w2.access_R_OK q ∧ w1.md5sum q = w2.md5sum q ∧ w1.stat q = w2.stat q)
    (hpure : ∀ e ∈ pkg.backup, ∀ e1 ∈ pkg.backup,
      system_path e1.name ∉ pacfile_paths (system_path e.name) ∧
      local_path pkg.name e1.name ∉ pacfile_paths (system_path e.name)) :
    (alpm_find_backups cfg colstr w1 pkg everything).map (fun s => s.backups) =
      (alpm_find_backups cfg colstr w2 pkg everything).map (fun s => s.backups) ∧
    (∀ f, (check_pacfiles w1 f &&& CONF_PACNEW ≠ 0 ↔
        w1.access_R_OK (snprintf PATH_MAX (f ++ ".pacnew".toList)) = true) ∧
      (check_pacfiles w1 f &&& CONF_PACSAVE ≠ 0 ↔
        w1.access_R_OK (snprintf PATH_MAX (f ++ ".pacsave".toList)) = true) ∧
      (check_pacfiles w1 f &&& CONF_PACORIG ≠ 0 ↔
        w1.access_R_OK (snprintf PATH_MAX (f ++ ".pacorig".toList)) = true)) ∧
    (∀ e ∈ pkg.backup, ∀ s s1 : find_state, cfg.logmask &&& LOG_WARN ≠ 0 →
      w1.access_R_OK (system_path e.name) = true →
      find_body cfg (strings_init cfg) w1 pkg.name everything s e = some s1 →
      ∃ rest, s1.err = s.err ++ sibling_warning cfg w1 (system_path e.name) "pacnew".toList
        ++ sibling_warning cfg w1 (system_path e.name) "pacsave".toList
        ++ sibling_warning cfg w1 (system_path e.name) "pacorig".toList ++ rest) ∧
    (∀ e ∈ pkg.backup, ∀ s : find_state, cfg.logmask &&& LOG_WARN ≠ 0 →
      w1.access_R_OK (system_path e.name) = true →
      w1.md5sum (system_path e.name) = some e.hash →
      find_body cfg (strings_init cfg) w1 pkg.name false s e =
        some { backups := s.backups
               err := s.err ++ sibling_warning cfg w1 (system_path e.name) "pacnew".toList
                 ++ sibling_warning cfg w1 (system_path e.name) "pacsave".toList
                 ++ sibling_warning cfg w1 (system_path e.name) "pacorig".toList }) := by
  refine ⟨?_, check_pacfiles_bits w1, ?_, ?_⟩
  rotate_left
  · intro e _ s s1 hlog hacc h
    rw [find_body_readable cfg (strings_init cfg) w1 pkg.name everything s e hacc,
      sibling_checks_text cfg w1 (system_path e.name) s.err hlog] at h
    exact find_classify_err cfg (strings_init cfg) w1 pkg.name everything s s1 e _ h
  rotate_left
  · rw [alpm_find_backups_backups, alpm_find_backups_backups]
    apply entry_records_congr
    intro e he
    have hsys := hdiff (system_path e.name) (fun e0 he0 => (hpure e0 he0 e he).1)
    have hloc := hdiff (local_path pkg.name e.name) (fun e0 he0 => (hpure e0 he0 e he).2)
    exact entry_record_congr w1 w2 pkg.name everything e hsys.1 hsys.2.1 hloc.2.2 hloc.2.1
  · intro e _ s hlog hacc hdig
    exact find_body_unmodified cfg w1 pkg.name s e hlog hacc hdig

/-- Witness of C10: `/etc/foo.conf.pacnew` is present on `world_D0` and absent
on `world_no_pacnew`; the records of `pkg_foo` are the same. -/
theorem C10_siblings_informational_witness :
    (alpm_find_backups cfg_default (strings_init cfg_default) world_D0 pkg_foo false).map
        (fun s => s.backups) =
      (alpm_find_backups cfg_default (strings_init cfg_default) world_no_pacnew pkg_foo
        false).map (fun s => s.backups) :=
  (C10_siblings_informational cfg_default (strings_init cfg_default) world_D0 world_no_pacnew
    pkg_foo false
    (by
      intro q hq
      have hne : q ≠ "/etc/foo.conf.pacnew".toList := by
        intro hq1
        apply hq ⟨"etc/foo.conf".toList, "D0".toList⟩ (by decide)
        rw [hq1]
        decide
      simp only [world_D0, world_no_pacnew, and_self, and_true]
      exact (decide_eq_true hne).symm)
    (by decide)).1

/-- Counterexample to C10 as stated: `pkg_tracks_sibling` tracks `etc/foo.conf`
and `etc/foo.conf.pacnew`. The machines `world_D0` and `world_no_pacnew` differ
only in the presence of `/etc/foo.conf.pacnew`, a sibling of the tracked
`/etc/foo.conf`, and the lists returned differ. -/
theorem C10_counterexample :
    "/etc/foo.conf.pacnew".toList ∈ pacfile_paths (system_path "etc/foo.conf".toList) ∧
    (⟨"etc/foo.conf".toList, "D0".toList⟩ : alpm_backup_t) ∈ pkg_tracks_sibling.backup ∧
    world_D0.md5sum = world_no_pacnew.md5sum ∧
    world_D0.stat = world_no_pacnew.stat ∧
    (∀ q, q ≠ "/etc/foo.conf.pacnew".toList →
      world_D0.access_R_OK q = world_no_pacnew.access_R_OK q) ∧
    (alpm_find_backups cfg_default (strings_init cfg_default) world_D0 pkg_tracks_sibling
        false).map (fun s => s.backups.map (fun b => b.system.path)) =
      some [some "/etc/foo.conf.pacnew".toList] ∧
    (alpm_find_backups cfg_default (strings_init cfg_default) world_no_pacnew
        pkg_tracks_sibling false).map (fun s => s.backups.map (fun b => b.system.path)) =
      some [] := by
  refine ⟨by decide, by decide, rfl, rfl, ?_, by decide, by decide⟩
  intro q hq
  simp only [world_D0, world_no_pacnew]
  exact (decide_eq_true hq).symm

/-! ## C4: list mode -/

/-- C4: with colour off, for a record whose `system.path` and `system.hash` are
set, `print_status` writes the line `<pkgname> <system.path>` and then: when
`local.path` is NULL, the one line `  file not locally tracked`; when a local
snapshot with another digest is present, the line `  warning: hashes don't
match!` and the system digest and the local digest on two indented lines; when
the local digest is the system digest, nothing more. -/
theorem C4_print_status (cfg : cfg_t) (b : backup_t) (sp sh : Str)
    (hcolor : cfg.color ≤ 0)
    (hsp : b.system.path = some sp) (hsh : b.system.hash = some sh) :
    (b.local.path = none →
      print_status (strings_init cfg) b =
        some (b.pkgname ++ " ".toList ++ sp ++ "\n".toList ++
          "  file not locally tracked\n".toList)) ∧
    (∀ lp lh, b.local.path = some lp → b.local.hash = some lh → sh ≠ lh →
      print_status (strings_init cfg) b =
        some (b.pkgname ++ " ".toList ++ sp ++ "\n".toList ++
          "  warning: hashes don't match!\n".toList ++
          "     ".toList ++ sh ++ "\n".toList ++ "     ".toList ++ lh ++ "\n".toList)) ∧
    (∀ lp, b.local.path = some lp → b.local.hash = some sh →
      print_status (strings_init cfg) b =
        some (b.pkgname ++ " ".toList ++ sp ++ "\n".toList)) := by
  have hc : ¬ cfg.color > 0 := not_lt.mpr hcolor
  have hline : vformat "%s%s%s %s\n".toList
      [(strings_init cfg).pkg, b.pkgname, (strings_init cfg).nc, show_str (some sp)] =
      b.pkgname ++ " ".toList ++ sp ++ "\n".toList := by
    unfold strings_init
    rw [if_neg hc]
    simp [vformat, show_str]
  have hwarn : vformat "  %s hashes don't match!\n".toList [(strings_init cfg).warn] =
      "  warning: hashes don't match!\n".toList := by
    unfold strings_init
    rw [if_neg hc]
    rfl
  have hdig : ∀ lh : Str, vformat "     %s\n     %s\n".toList [sh, lh] =
      "     ".toList ++ sh ++ "\n".toList ++ "     ".toList ++ lh ++ "\n".toList := by
    intro lh
    simp [vformat]
  refine ⟨?_, ?_, ?_⟩
  · intro hl
    unfold print_status
    simp only [hsp, hl, hline]
    rfl
  · intro lp lh hl hlh hne
    unfold print_status
    simp only [hsp, hsh, hl, hlh, hline, hwarn, hdig]
    have : (!STREQ sh lh) = true := by simp [STREQ, hne]
    rw [if_pos this]
    simp only [List.append_assoc]
  · intro lp hl hlh
    unfold print_status
    simp only [hsp, hsh, hl, hlh, hline]
    have : ¬ (!STREQ sh sh) = true := by simp [STREQ]
    rw [if_neg this]

/-- Witness of C4: the record of `etc/sudoers`, whose archived copy has another
digest. -/
theorem C4_print_status_witness :
    print_status (strings_init cfg_default) record_sudoers =
      some ("sudo /etc/sudoers\n  warning: hashes don't match!\n     D1\n     D2\n").toList :=
  (C4_print_status cfg_default record_sudoers "/etc/sudoers".toList "D1".toList
    (by decide) rfl rfl).2.1 "sudo/etc/sudoers".toList "D2".toList rfl rfl (by decide)

/-! ## C7: the archive destination is the path probed for the local copy -/

/-- C7: for every package name and entry name, the destination `archive`
writes to for the record built from the entry (`pkgname` followed by
`system.path`, cut to the `PATH_MAX` buffer, where `system.path` is
`PACMAN_ROOT` followed by the name, cut likewise) is the same text as the
candidate path `alpm_find_backups` probes for the local copy (`pkgname`, `/`,
the name, cut likewise); so `archive` on that record makes the directories of,
and copies the file to, the path probed for the local copy. -/
theorem C7_dest_is_candidate (pkgname name : Str) :
    archive_dest pkgname (system_path name) = local_path pkgname name ∧
    ∀ (fs : FS) (st0 st1 : Nat) (h : Option Str) (l : file_t) (rh : Str),
      archive fs st0 st1
          { pkgname := pkgname, system := ⟨some (system_path name), h⟩, «local» := l, hash := rh } =
        (archive_loop (local_path pkgname name) pkgname.length
          (List.range' 1 ((local_path pkgname name).length - 1)) (fs, st0)).bind
          (fun s => copy s.1 st1 (system_path name) (local_path pkgname name)) := by
  have key : archive_dest pkgname (system_path name) = local_path pkgname name := by
    unfold archive_dest system_path local_path snprintf PACMAN_ROOT
    have h : "/".toList ++ name = '/' :: name := rfl
    rw [h, List.take_append_eq_append_take, List.take_append_eq_append_take, List.take_take]
    congr 2
    omega
  refine ⟨key, ?_⟩
  intro fs st0 st1 h l rh
  unfold archive
  simp only [key]
  cases archive_loop (local_path pkgname name) pkgname.length
    (List.range' 1 ((local_path pkgname name).length - 1)) (fs, st0) <;> rfl

/-! ## The file system: modes -/

theorem and_type_bits_perm (x c : Nat) (k : Nat) (hk : 0o170000 &&& k = 0) :
    0o170000 &&& ((x &&& k) &&& c) = 0 := by
  rw [← Nat.and_assoc, ← Nat.and_assoc, Nat.and_comm 0o170000 x, Nat.and_assoc x, hk]
  simp

theorem S_ISDIR_mkdir_mode (mode umask : Nat) :
    S_ISDIR (S_IFDIR ||| clear_umask (mode &&& 0o1777) umask) = true := by
  unfold S_ISDIR S_IFDIR clear_umask
  rw [Nat.and_comm, Nat.and_or_distrib_left, and_type_bits_perm mode _ 0o1777 (by decide)]
  decide

theorem S_ISREG_creat_mode (mode umask : Nat) :
    S_ISREG (S_IFREG ||| clear_umask (mode &&& 0o7777) umask) = true := by
  unfold S_ISREG S_IFREG clear_umask
  rw [Nat.and_comm, Nat.and_or_distrib_left, and_type_bits_perm mode _ 0o7777 (by decide)]
  decide

theorem S_ISDIR_creat_mode (mode umask : Nat) :
    S_ISDIR (S_IFREG ||| clear_umask (mode &&& 0o7777) umask) = false := by
  unfold S_ISDIR S_IFREG clear_umask
  rw [Nat.and_comm, Nat.and_or_distrib_left, and_type_bits_perm mode _ 0o7777 (by decide)]
  decide

/-! ## The file system: `mkdir` and `mkpath` only add directories -/

theorem resolve_cwd (fs fs1 : FS) (h : fs1.cwd = fs.cwd) (p : Str) :
    resolve fs1 p = resolve fs p := by
  unfold resolve
  rw [h]

theorem extends_by_refl (fs : FS) : extends_by fs fs [] :=
  { cwd_eq := rfl
    umask_eq := rfl
    mkdirs_eq := by simp
    keeps := fun _ _ h => h
    added := fun q h1 h2 => absurd h1 h2 }

theorem lookup_mono (fs fs1 : FS) (new : List (Str × Nat)) (h : extends_by fs fs1 new)
    (p : Str) (n : Node) (hs : lookup fs p = some n) : lookup fs1 p = some n := by
  unfold lookup at *
  by_cases hp : p = []
  · simp [hp] at hs
  · rw [if_neg hp] at hs
    rw [if_neg hp, resolve_cwd fs fs1 h.cwd_eq]
    cases hn : fs.nodes (resolve fs p) with
    | none => simp [hn] at hs
    | some n0 =>
      rw [hn] at hs
      rw [h.keeps _ n0 hn]
      exact hs

theorem stat_mono (fs fs1 : FS) (new : List (Str × Nat)) (h : extends_by fs fs1 new)
    (p : Str) (m : Nat) (hs : stat fs p = some m) : stat fs1 p = some m := by
  unfold stat at *
  cases hl : lookup fs p with
  | none => simp [hl] at hs
  | some n =>
    rw [hl] at hs
    rw [lookup_mono fs fs1 new h p n hl]
    exact hs

theorem mkdir_spec (fs1 fs2 : FS) (p : Str) (mode : Nat) (h : mkdir fs1 p mode = some fs2) :
    p ≠ [] ∧ fs1.nodes (resolve fs1 p) = none ∧
    fs2.cwd = fs1.cwd ∧ fs2.umask = fs1.umask ∧ fs2.mkdirs = fs1.mkdirs ++ [(p, mode)] ∧
    fs2.nodes = (fun x => if x = resolve fs1 p then
      some ⟨S_IFDIR ||| clear_umask (mode &&& 0o1777) fs1.umask, []⟩ else fs1.nodes x) := by
  unfold mkdir at h
  simp only at h
  by_cases hp : p = [] ∨ resolve fs1 p = []
  · rw [if_pos hp] at h
    exact absurd h (by simp)
  · rw [if_neg hp] at h
    cases hn : fs1.nodes (resolve fs1 p) with
    | some n => simp [hn] at h
    | none =>
      simp only [hn] at h
      cases hpar : fs1.nodes (resolve fs1 p).dropLast with
      | none => simp [hpar] at h
      | some parent =>
        simp only [hpar] at h
        by_cases hd : S_ISDIR parent.mode = true
        · rw [if_pos hd] at h
          simp only [Option.some.injEq] at h
          subst h
          exact ⟨fun h0 => hp (Or.inl h0), rfl, rfl, rfl, rfl, rfl⟩
        · rw [if_neg hd] at h
          exact absurd h (by simp)

theorem mkdir_ext (fs fs1 fs2 : FS) (new : List (Str × Nat)) (p : Str) (mode : Nat)
    (hext : extends_by fs fs1 new) (h : mkdir fs1 p mode = some fs2) :
    extends_by fs fs2 (new ++ [(p, mode)]) ∧ stat fs1 p = none ∧
      ∃ m, stat fs2 p = some m ∧ S_ISDIR m = true := by
  obtain ⟨hp, hnone, hcwd, hum, hlog, hnodes⟩ := mkdir_spec fs1 fs2 p mode h
  have hres : resolve fs1 p = resolve fs p := resolve_cwd fs fs1 hext.cwd_eq p
  refine ⟨?_, ?_, ?_⟩
  · refine ⟨hcwd.trans hext.cwd_eq, hum.trans hext.umask_eq, ?_, ?_, ?_⟩
    · rw [hlog, hext.mkdirs_eq, List.append_assoc]
    · intro q n hq
      have h1 := hext.keeps q n hq
      rw [hnodes]
      by_cases hx : q = resolve fs1 p
      · rw [hx, hnone] at h1
        exact absurd h1 (by simp)
      · simp only [if_neg hx]
        exact h1
    · intro q hq hq2
      rw [hnodes] at hq2 ⊢
      by_cases hx : q = resolve fs1 p
      · simp only [if_pos hx]
        refine ⟨⟨(p, mode), by simp, ?_⟩, _, rfl, S_ISDIR_mkdir_mode mode fs1.umask⟩
        rw [hx, hres]
      · simp only [if_neg hx] at hq2 ⊢
        obtain ⟨⟨pm, hpm, hr⟩, hn⟩ := hext.added q hq hq2
        exact ⟨⟨pm, List.mem_append_left _ hpm, hr⟩, hn⟩
  · unfold stat lookup
    rw [if_neg hp, hnone]
    rfl
  · refine ⟨S_IFDIR ||| clear_umask (mode &&& 0o1777) fs1.umask, ?_, S_ISDIR_mkdir_mode _ _⟩
    unfold stat lookup
    rw [if_neg hp, hnodes, resolve_cwd fs1 fs2 hcwd]
    simp [S_ISDIR_mkdir_mode]

theorem mkpath_ext (fs fs1 fs2 : FS) (new : List (Str × Nat)) (p : Str) (mode : Nat)
    (hext : extends_by fs fs1 new) (h : mkpath fs1 p mode = some fs2) :
    ∃ add, extends_by fs fs2 (new ++ add) ∧
      (∀ pm ∈ add, pm = (p, mode) ∧ stat fs1 p = none) ∧
      ∃ m, stat fs2 p = some m ∧ S_ISDIR m = true := by
  unfold mkpath at h
  cases hs : stat fs1 p with
  | none =>
    rw [hs] at h
    obtain ⟨h1, h2, h3⟩ := mkdir_ext fs fs1 fs2 new p mode hext h
    exact ⟨[(p, mode)], h1, by simp, h3⟩
  | some m =>
    simp only [hs] at h
    by_cases hd : S_ISDIR m = true
    · rw [if_pos hd] at h
      simp only [Option.some.injEq] at h
      subst h
      exact ⟨[], by simpa using hext, by simp, m, hs, hd⟩
    · rw [if_neg hd] at h
      exact absurd h (by simp)

/-! ## The loop of `archive` -/

/-- What the loop of `archive` does to the file system: it only adds
directories; every `mkdir` it makes is for a prefix of `dest` that ends before a
`/` and that `stat` did not find at the start, with mode `0777` up to the
package name and the mode of the matching prefix of the source path beyond it;
and afterwards every such prefix is a directory. -/
theorem archive_loop_ext (dest : Str) (root : Nat) (idx : List Nat) :
    ∀ (fs : FS) (s t : FS × Nat) (new : List (Str × Nat)),
      archive_loop dest root idx s = some t → extends_by fs s.1 new →
      ∃ add, extends_by fs t.1 (new ++ add) ∧
        (∀ pm ∈ add, ∃ i ∈ idx, dest.get? i = some '/' ∧ pm.1 = dest.take i ∧
          stat fs (dest.take i) = none ∧ (i ≤ root → pm.2 = 0o777) ∧
          (root < i → ∀ m, stat fs ((dest.drop root).take (i - root)) = some m → pm.2 = m)) ∧
        (∀ i ∈ idx, dest.get? i = some '/' →
          ∃ m, stat t.1 (dest.take i) = some m ∧ S_ISDIR m = true) := by
  induction idx with
  | nil =>
    intro fs s t new h hext
    simp only [archive_loop, Option.some.injEq] at h
    subst h
    exact ⟨[], by simpa using hext, by simp, by simp⟩
  | cons i rest ih =>
    intro fs s t new h hext
    unfold archive_loop at h
    by_cases hc : dest.get? i = some '/'
    · rw [if_pos hc] at h
      simp only at h
      cases hm : mkpath s.1 (dest.take i)
          (if i > root then
            (if i > root then
              match stat s.1 ((dest.drop root).take (i - root)) with
              | some m => m
              | none => s.2
            else s.2)
          else 0o777) with
      | none => rw [hm] at h; exact absurd h (by simp)
      | some fs1 =>
        rw [hm] at h
        simp only at h
        obtain ⟨add1, hext1, hadd1, hdir1⟩ := mkpath_ext fs s.1 fs1 new _ _ hext hm
        obtain ⟨add2, hext2, hadd2, hdir2⟩ := ih fs (fs1, _) t (new ++ add1) h hext1
        refine ⟨add1 ++ add2, by simpa [List.append_assoc] using hext2, ?_, ?_⟩
        · intro pm hpm
          rcases List.mem_append.mp hpm with h1 | h2
          · obtain ⟨hpm1, hnone⟩ := hadd1 pm h1
            refine ⟨i, List.mem_cons_self _ _, hc, by rw [hpm1], ?_, ?_, ?_⟩
            · cases hs0 : stat fs (dest.take i) with
              | none => rfl
              | some m0 =>
                rw [stat_mono fs s.1 new hext _ m0 hs0] at hnone
                exact absurd hnone (by simp)
            · intro hle
              rw [hpm1]
              simp only [if_neg (not_lt.mpr hle)]
            · intro hlt m hsm
              rw [hpm1]
              simp only [if_pos hlt, stat_mono fs s.1 new hext _ m hsm]
          · obtain ⟨j, hj, hrest⟩ := hadd2 pm h2
            exact ⟨j, List.mem_cons_of_mem _ hj, hrest⟩
        · intro j hj hcj
          rcases List.mem_cons.mp hj with h1 | h2
          · obtain ⟨m, hsm, hdm⟩ := hdir1
            rw [h1]
            have hext12 : extends_by fs1 t.1 add2 := by
              obtain ⟨add3, hext3, _, _⟩ := ih fs1 (fs1, _) t [] h (extends_by_refl fs1)
              have : add3 = add2 := by
                have e1 := hext3.mkdirs_eq
                have e2 := hext2.mkdirs_eq
                rw [hext1.mkdirs_eq] at e1
                rw [e1] at e2
                simpa [List.append_assoc] using e2
              rw [← this]
              simpa using hext3
            exact ⟨m, stat_mono fs1 t.1 add2 hext12 _ m hsm, hdm⟩
          · exact hdir2 j h2 hcj
    · rw [if_neg hc] at h
      obtain ⟨add, hext2, hadd, hdir⟩ := ih fs s t new h hext
      refine ⟨add, hext2, ?_, ?_⟩
      · intro pm hpm
        obtain ⟨j, hj, hrest⟩ := hadd pm hpm
        exact ⟨j, List.mem_cons_of_mem _ hj, hrest⟩
      · intro j hj hcj
        rcases List.mem_cons.mp hj with h1 | h2
        · rw [h1] at hcj; exact absurd hcj hc
        · exact hdir j h2 hcj

theorem stat_some (fs : FS) (p : Str) (m : Nat) :
    stat fs p = some m ↔ ∃ n, lookup fs p = some n ∧ n.mode = m := by
  unfold stat
  cases lookup fs p <;> simp

theorem lookup_dir (fs : FS) (p : Str) (n : Node) (h : lookup fs p = some n) :
    p ≠ [] ∧ fs.nodes (resolve fs p) = some n := by
  unfold lookup at h
  by_cases hp : p = []
  · simp [hp] at h
  · rw [if_neg hp] at h
    refine ⟨hp, ?_⟩
    cases hn : fs.nodes (resolve fs p) with
    | none => simp [hn] at h
    | some n0 =>
      simp only [hn] at h
      by_cases hc : (trailing_slash p && !S_ISDIR n0.mode) = true
      · simp [hc] at h
      · rw [if_neg hc] at h
        exact h

theorem lookup_of_dir (fs : FS) (p : Str) (n : Node) (hp : p ≠ [])
    (h : fs.nodes (resolve fs p) = some n) (hd : S_ISDIR n.mode = true) :
    lookup fs p = some n := by
  unfold lookup
  rw [if_neg hp, h]
  simp [hd]

/-! ## The function `copy` -/

theorem write_spec (fs fs1 : FS) (fd : Option Path) (buf : Str)
    (h : write fs fd buf = some fs1) :
    ∃ q n, fd = some q ∧ fs.nodes q = some n ∧
      fs1 = set_node fs q { n with data := n.data ++ buf } := by
  unfold write at h
  cases fd with
  | none => simp at h
  | some q =>
    simp only at h
    cases hn : fs.nodes q with
    | none => simp [hn] at h
    | some n =>
      simp only [hn, Option.some.injEq] at h
      exact ⟨q, n, rfl, hn, h.symm⟩

/-- The loop of `copy` changes nothing but the bytes of the file written to. -/
theorem copy_loop_frame (fd_in fd_out : Option Path) (fuel : Nat) :
    ∀ (fs fs1 : FS) (off : Nat), copy_loop fd_in fd_out fuel fs off = some fs1 →
      fs1.cwd = fs.cwd ∧ fs1.umask = fs.umask ∧ fs1.mkdirs = fs.mkdirs ∧
      (∀ x, fd_out ≠ some x → fs1.nodes x = fs.nodes x) ∧
      (∀ x n, fs.nodes x = some n → ∃ d, fs1.nodes x = some { n with data := d }) ∧
      (∀ x, fs.nodes x = none → fs1.nodes x = none) := by
  induction fuel with
  | zero =>
    intro fs fs1 off h
    simp [copy_loop] at h
  | succ k ih =>
    intro fs fs1 off h
    unfold copy_loop at h
    simp only at h
    by_cases hb : read fs fd_in off 8192 = []
    · rw [if_pos hb] at h
      simp only [Option.some.injEq] at h
      subst h
      exact ⟨rfl, rfl, rfl, fun _ _ => rfl, fun x n hx => ⟨n.data, hx⟩, fun _ hx => hx⟩
    · rw [if_neg hb] at h
      cases hw : write fs fd_out (read fs fd_in off 8192) with
      | none => simp [hw] at h
      | some fs2 =>
        simp only [hw] at h
        obtain ⟨q, n, hq, hn, hfs2⟩ := write_spec fs fs2 fd_out _ hw
        obtain ⟨h1, h2, h3, h4, h5, h6⟩ := ih fs2 fs1 _ h
        subst hfs2
        refine ⟨h1, h2, h3, ?_, ?_, ?_⟩
        · intro x hx
          rw [h4 x hx]
          have : x ≠ q := fun e => hx (by rw [hq, e])
          simp [set_node, this]
        · intro x n0 hx
          by_cases hxq : x = q
          · subst hxq
            rw [hn] at hx
            simp only [Option.some.injEq] at hx
            subst hx
            obtain ⟨d, hd⟩ := h5 x { n with data := n.data ++ read fs fd_in off 8192 }
              (by simp [set_node])
            exact ⟨d, hd⟩
          · exact h5 x n0 (by simp [set_node, hxq, hx])
        · intro x hx
          have hxq : x ≠ q := by
            intro e
            rw [e, hn] at hx
            exact absurd hx (by simp)
          exact h6 x (by simp [set_node, hxq, hx])

/-- What `open(dest, O_WRONLY | O_CREAT | O_TRUNC, mode)` leaves: nothing
changes but the node opened, which is then an empty file that is no directory;
when the call fails nothing changes. -/
theorem open_creat_trunc_spec (fs : FS) (p : Str) (mode : Nat) :
    (open_creat_trunc fs p mode).1.cwd = fs.cwd ∧
    (open_creat_trunc fs p mode).1.umask = fs.umask ∧
    (open_creat_trunc fs p mode).1.mkdirs = fs.mkdirs ∧
    (∀ x, x ≠ resolve fs p → (open_creat_trunc fs p mode).1.nodes x = fs.nodes x) ∧
    ((open_creat_trunc fs p mode).2 = none → (open_creat_trunc fs p mode).1 = fs) ∧
    (∀ q, (open_creat_trunc fs p mode).2 = some q → q = resolve fs p ∧
      ∃ n, (open_creat_trunc fs p mode).1.nodes q = some n ∧ n.data = [] ∧
        S_ISDIR n.mode = false ∧
        (∀ n0, fs.nodes q = some n0 → n.mode = n0.mode ∧ S_ISDIR n0.mode = false) ∧
        (fs.nodes q = none → n.mode = S_IFREG ||| clear_umask (mode &&& 0o7777) fs.umask)) := by
  unfold open_creat_trunc
  simp only
  by_cases hp : p = [] ∨ resolve fs p = [] ∨ trailing_slash p = true
  · rw [if_pos hp]
    simp
  · rw [if_neg hp]
    cases hn : fs.nodes (resolve fs p) with
    | some n =>
      simp only
      by_cases hd : S_ISDIR n.mode = true
      · rw [if_pos hd]
        simp
      · rw [if_neg hd]
        have hd1 : S_ISDIR n.mode = false := by simpa using hd
        refine ⟨rfl, rfl, rfl, ?_, by simp, ?_⟩
        · intro x hx
          simp [set_node, hx]
        · intro q hq
          simp only [Option.some.injEq] at hq
          subst hq
          refine ⟨rfl, { n with data := [] }, by simp [set_node], rfl, hd1, ?_, ?_⟩
          · intro n0 hn0
            rw [hn] at hn0
            simp only [Option.some.injEq] at hn0
            subst hn0
            exact ⟨rfl, hd1⟩
          · intro h0
            rw [hn] at h0
            exact absurd h0 (by simp)
    | none =>
      simp only
      cases hpar : fs.nodes (resolve fs p).dropLast with
      | none => simp
      | some parent =>
        simp only
        by_cases hd : S_ISDIR parent.mode = true
        · rw [if_pos hd]
          refine ⟨rfl, rfl, rfl, ?_, by simp, ?_⟩
          · intro x hx
            simp [set_node, hx]
          · intro q hq
            simp only [Option.some.injEq] at hq
            subst hq
            refine ⟨rfl, ⟨S_IFREG ||| clear_umask (mode &&& 0o7777) fs.umask, []⟩,
              by simp [set_node], rfl, S_ISDIR_creat_mode _ _, ?_, ?_⟩
            · intro n0 hn0
              rw [hn] at hn0
              exact absurd hn0 (by simp)
            · intro _
              rfl
        · rw [if_neg hd]
          simp

/-- The function `copy` changes no node but the destination, never a
directory, and makes no directory. -/
theorem copy_frame (fs fs1 : FS) (st : Nat) (src dest : Str)
    (h : copy fs st src dest = some fs1) :
    fs1.cwd = fs.cwd ∧ fs1.umask = fs.umask ∧ fs1.mkdirs = fs.mkdirs ∧
    (∀ x, x ≠ resolve fs dest → fs1.nodes x = fs.nodes x) ∧
    (∀ x n, fs.nodes x = some n → S_ISDIR n.mode = true → fs1.nodes x = some n) := by
  unfold copy at h
  simp only at h
  obtain ⟨h1, h2, h3, h4, _, _⟩ := copy_loop_frame _ _ _ _ _ _ h
  obtain ⟨o1, o2, o3, o4, o5, o6⟩ := open_creat_trunc_spec fs dest
    (match stat fs src with
      | some m => m
      | none => st)
  refine ⟨h1.trans o1, h2.trans o2, h3.trans o3, ?_, ?_⟩
  · intro x hx
    rw [h4 x, o4 x hx]
    intro hout
    exact hx (o6 x hout).1
  · intro x n hn hd
    have hout : ∀ q, (open_creat_trunc fs dest (match stat fs src with
        | some m => m
        | none => st)).2 = some q → q ≠ x := by
      intro q hq hqx
      obtain ⟨_, n1, _, _, _, hold, _⟩ := o6 q hq
      rw [hqx] at hold
      have := (hold n hn).2
      rw [hd] at this
      exact absurd this (by decide)
    rw [h4 x (fun e => hout x e rfl)]
    by_cases hx : x = resolve fs dest
    · cases hfd : (open_creat_trunc fs dest (match stat fs src with
          | some m => m
          | none => st)).2 with
      | none => rw [o5 hfd]; exact hn
      | some q =>
        have := (o6 q hfd).1
        exact absurd (this.trans hx.symm) (hout q hfd)
    · rw [o4 x hx]; exact hn

theorem archive_dest_drop (pkgname sp : Str) (i : Nat)
    (hi : i < (archive_dest pkgname sp).length) :
    ((archive_dest pkgname sp).drop pkgname.length).take (i - pkgname.length) =
      sp.take (i - pkgname.length) := by
  unfold archive_dest snprintf at *
  rw [List.drop_take, List.drop_left, List.take_take]
  congr 1
  rw [List.length_take] at hi
  omega

/-! ## The directories `archive` makes -/

/-- When `archive` completes on a record, the `mkdir` calls it made are for
prefixes of the destination that end before a `/` and that `stat` did not find
before, each requested with mode `0777` within the package name and otherwise
with the `st_mode` of the prefix of `system.path` ending at the same `/`;
afterwards every such prefix is a directory, each one that was missing was made
by one of the calls, and every directory that existed is as it was. -/
theorem archive_directories (fs fs1 : FS) (st0 st1 : Nat) (b : backup_t) (sp : Str)
    (hsp : b.system.path = some sp) (hrun : archive fs st0 st1 b = some fs1) :
    ∃ new, fs1.mkdirs = fs.mkdirs ++ new ∧
      (∀ pm ∈ new, ∃ i, 1 ≤ i ∧ (archive_dest b.pkgname sp).get? i = some '/' ∧
        pm.1 = (archive_dest b.pkgname sp).take i ∧ stat fs pm.1 = none ∧
        (i ≤ b.pkgname.length → pm.2 = 0o777) ∧
        (b.pkgname.length < i →
          ∀ m, stat fs (sp.take (i - b.pkgname.length)) = some m → pm.2 = m)) ∧
      (∀ i, 1 ≤ i → (archive_dest b.pkgname sp).get? i = some '/' →
        (∃ m, stat fs1 ((archive_dest b.pkgname sp).take i) = some m ∧ S_ISDIR m = true) ∧
        (stat fs ((archive_dest b.pkgname sp).take i) = none →
          ∃ pm ∈ new, resolve fs pm.1 = resolve fs ((archive_dest b.pkgname sp).take i))) ∧
      (∀ q n, fs.nodes q = some n → S_ISDIR n.mode = true → fs1.nodes q = some n) := by
  unfold archive at hrun
  simp only [hsp] at hrun
  cases hloop : archive_loop (archive_dest b.pkgname sp) b.pkgname.length
      (List.range' 1 ((archive_dest b.pkgname sp).length - 1)) (fs, st0) with
  | none => simp [hloop] at hrun
  | some t =>
    simp only [hloop] at hrun
    obtain ⟨new, hext, hadd, hdir⟩ := archive_loop_ext _ _ _ fs (fs, st0) t [] hloop
      (extends_by_refl fs)
    simp only [List.nil_append] at hext
    obtain ⟨c1, c2, c3, c4, c5⟩ := copy_frame t.1 fs1 st1 sp _ hrun
    have hlen : ∀ i, (archive_dest b.pkgname sp).get? i = some '/' →
        i < (archive_dest b.pkgname sp).length := by
      intro i hc
      by_contra hge
      rw [List.get?_eq_none.mpr (not_lt.mp hge)] at hc
      exact absurd hc (by simp)
    refine ⟨new, by rw [c3, hext.mkdirs_eq], ?_, ?_, ?_⟩
    · intro pm hpm
      obtain ⟨i, hi, hc, hp1, hnone, h777, hmode⟩ := hadd pm hpm
      refine ⟨i, (List.mem_range'_1.mp hi).1, hc, hp1, by rw [hp1]; exact hnone, h777, ?_⟩
      intro hlt m hm
      apply hmode hlt m
      rw [archive_dest_drop b.pkgname sp i (hlen i hc)]
      exact hm
    · intro i h1 hc
      have hi : i ∈ List.range' 1 ((archive_dest b.pkgname sp).length - 1) := by
        apply List.mem_range'_1.mpr
        have := hlen i hc
        omega
      obtain ⟨m, hm, hd⟩ := hdir i hi hc
      obtain ⟨n, hn, hnm⟩ := (stat_some t.1 _ m).mp hm
      have hnd : S_ISDIR n.mode = true := by rw [hnm]; exact hd
      obtain ⟨hpne, hnode⟩ := lookup_dir t.1 _ n hn
      constructor
      · refine ⟨m, (stat_some fs1 _ m).mpr ⟨n, ?_, hnm⟩, hd⟩
        apply lookup_of_dir fs1 _ n hpne _ hnd
        rw [resolve_cwd t.1 fs1 c1]
        exact c5 _ n hnode hnd
      · intro hnone
        rw [resolve_cwd fs t.1 hext.cwd_eq] at hnode
        have hfs : fs.nodes (resolve fs ((archive_dest b.pkgname sp).take i)) = none := by
          cases hq : fs.nodes (resolve fs ((archive_dest b.pkgname sp).take i)) with
          | none => rfl
          | some n0 =>
            have hk := hext.keeps _ n0 hq
            rw [hnode] at hk
            simp only [Option.some.injEq] at hk
            subst hk
            have := (stat_some fs _ n.mode).mpr ⟨n, lookup_of_dir fs _ n hpne hq hnd, rfl⟩
            rw [hnone] at this
            exact absurd this (by simp)
        exact (hext.added _ hfs (by rw [hnode]; simp)).1
    · intro q n hq hd
      exact c5 q n (hext.keeps q n hq) hd

/-! ## Path names and their components -/

theorem components_from_append (a b cur : Str) :
    components_from (a ++ '/' :: b) cur = components_from a cur ++ components_from b [] := by
  induction a generalizing cur with
  | nil =>
    simp only [List.nil_append, components_from, if_true]
    by_cases hc : cur = [] <;> simp [hc]
  | cons c rest ih =>
    simp only [List.cons_append, components_from]
    by_cases hs : c = '/'
    · simp only [hs, if_true]
      by_cases hc : cur = []
      · simp only [hc, if_true]
        exact ih []
      · simp only [hc, if_false, List.cons_append]
        exact congrArg (fun t => cur :: t) (ih [])
    · simp only [hs, if_false]
      exact ih (cur ++ [c])

theorem components_append (a b : Str) :
    components (a ++ '/' :: b) = components a ++ components b :=
  components_from_append a b []

theorem components_from_no_slash (s cur : Str) (h : '/' ∉ s) (hne : cur ++ s ≠ []) :
    components_from s cur = [cur ++ s] := by
  induction s generalizing cur with
  | nil =>
    simp only [List.append_nil] at hne
    simp [components_from, hne]
  | cons c rest ih =>
    have hc : c ≠ '/' := fun e => h (by simp [e])
    have hr : '/' ∉ rest := fun e => h (List.mem_cons_of_mem _ e)
    simp only [components_from, hc, if_false]
    rw [ih (cur ++ [c]) hr (by simp)]
    simp

theorem components_no_slash (s : Str) (h : '/' ∉ s) (hne : s ≠ []) :
    components s = [s] := by
  have := components_from_no_slash s [] h (by simpa using hne)
  simpa [components] using this

/-- A path name that has a `/` splits at its last `/`. -/
theorem split_last_slash (s : Str) (h : '/' ∈ s) :
    ∃ pre last, s = pre ++ '/' :: last ∧ '/' ∉ last := by
  induction s with
  | nil => simp at h
  | cons c rest ih =>
    by_cases hr : '/' ∈ rest
    · obtain ⟨pre, last, hs, hl⟩ := ih hr
      exact ⟨c :: pre, last, by rw [hs]; rfl, hl⟩
    · have hc : c = '/' := by
        rcases List.mem_cons.mp h with h1 | h1
        · exact h1.symm
        · exact absurd h1 hr
      exact ⟨[], rest, by rw [hc]; rfl, hr⟩

theorem resolve_append (fs : FS) (pre rest : Str) (hpre : pre ≠ []) :
    resolve fs (pre ++ '/' :: rest) = resolve fs pre ++ components rest := by
  unfold resolve
  have hh : (pre ++ '/' :: rest).head? = pre.head? := by
    cases pre with
    | nil => exact absurd rfl hpre
    | cons c t => rfl
  rw [hh, components_append]
  by_cases h : pre.head? = some '/'
  · simp [h]
  · simp [h, List.append_assoc]

/-! ## What `copy` writes -/

theorem set_node_same (fs : FS) (q : Path) (n : Node) (h : fs.nodes q = some n) :
    set_node fs q n = fs := by
  cases fs with
  | mk nodes cwd umask mkdirs =>
    simp only [set_node, FS.mk.injEq, and_true]
    funext x
    by_cases hx : x = q
    · simp only [hx, if_true]; exact h.symm
    · simp only [hx, if_false]

theorem set_node_set_node (fs : FS) (q : Path) (a b : Node) :
    set_node (set_node fs q a) q b = set_node fs q b := by
  simp only [set_node, FS.mk.injEq, and_true]
  funext x
  by_cases hx : x = q <;> simp [hx]

theorem take_append_drop_length (n : Nat) (l : Str) :
    l.take n ++ l.drop (l.take n).length = l := by
  rw [List.length_take]
  by_cases h : n ≤ l.length
  · rw [Nat.min_eq_left h]
    exact List.take_append_drop n l
  · have h1 : l.length ≤ n := by omega
    rw [Nat.min_eq_right h1, List.take_of_length_le h1, List.drop_length]
    simp

/-- Reading a file that is not the one written to, the loop of `copy` appends
what is left of it to the file written to. -/
theorem copy_loop_exact (qs qd : Path) (hne : qs ≠ qd) (ns : Node)
    (hdir : S_ISDIR ns.mode = false) :
    ∀ (fuel : Nat) (fs : FS) (off : Nat) (nd : Node),
      fs.nodes qs = some ns → fs.nodes qd = some nd → ns.data.length - off < fuel →
      copy_loop (some qs) (some qd) fuel fs off =
        some (set_node fs qd { nd with data := nd.data ++ ns.data.drop off }) := by
  intro fuel
  induction fuel with
  | zero => intro fs off nd _ _ hf; omega
  | succ k ih =>
    intro fs off nd hs hd hf
    unfold copy_loop
    have hread : read fs (some qs) off 8192 = (ns.data.drop off).take 8192 := by
      simp [read, hs, hdir]
    simp only [hread]
    by_cases hb : (ns.data.drop off).take 8192 = []
    · rw [if_pos hb]
      have hdrop : ns.data.drop off = [] := by
        cases hl : ns.data.drop off with
        | nil => rfl
        | cons c t => rw [hl] at hb; simp at hb
      rw [hdrop, List.append_nil, set_node_same fs qd _ hd]
    · rw [if_neg hb]
      have hw : write fs (some qd) ((ns.data.drop off).take 8192) =
          some (set_node fs qd { nd with data := nd.data ++ (ns.data.drop off).take 8192 }) := by
        simp [write, hd]
      simp only [hw]
      have hpos : 0 < ((ns.data.drop off).take 8192).length := by
        cases hl : (ns.data.drop off).take 8192 with
        | nil => exact absurd hl hb
        | cons c t => simp
      have hle : ((ns.data.drop off).take 8192).length ≤ ns.data.length - off := by
        rw [List.length_take, List.length_drop]
        omega
      rw [ih _ (off + ((ns.data.drop off).take 8192).length)
        { nd with data := nd.data ++ (ns.data.drop off).take 8192 }
        (by simp [set_node, hne, hs]) (by simp [set_node]) (by omega)]
      rw [set_node_set_node]
      congr 3
      simp only [List.append_assoc]
      congr 1
      rw [← List.drop_drop]
      exact take_append_drop_length 8192 (ns.data.drop off)

theorem components_from_ne_nil (s cur : Str) (c : Char) (hc : c ≠ '/')
    (h : s.getLast? = some c) : components_from s cur ≠ [] := by
  induction s generalizing cur with
  | nil => simp at h
  | cons a rest ih =>
    cases rest with
    | nil =>
      simp only [List.getLast?_singleton, Option.some.injEq] at h
      subst h
      simp [components_from, hc]
    | cons b t =>
      have h1 : (b :: t).getLast? = some c := by
        rw [List.getLast?_cons_cons] at h
        exact h
      unfold components_from
      by_cases ha : a = '/'
      · simp only [ha, if_true]
        by_cases hcur : cur = []
        · simp only [hcur, if_true]
          exact ih [] h1
        · simp [hcur]
      · simp only [ha, if_false]
        exact ih (cur ++ [a]) h1

/-- A path name that does not end in `/` resolves to another node than each
of its prefixes that end before a `/`. -/
theorem resolve_prefix_ne (fs : FS) (dest : Str) (j : Nat) (hj : 1 ≤ j)
    (hslash : dest.get? j = some '/') (htrail : trailing_slash dest = false) :
    resolve fs (dest.take j) ≠ resolve fs dest := by
  have hlt : j < dest.length := by
    by_contra hge
    rw [List.get?_eq_none.mpr (not_lt.mp hge)] at hslash
    exact absurd hslash (by simp)
  have hsplit : dest = dest.take j ++ '/' :: dest.drop (j + 1) := by
    conv_lhs => rw [← List.take_append_drop j dest]
    congr 1
    rw [List.drop_eq_getElem_cons hlt]
    congr 1
    rw [List.get?_eq_getElem?, List.getElem?_eq_getElem hlt] at hslash
    exact Option.some.inj hslash
  have hpre : dest.take j ≠ [] := by
    intro h0
    have := congrArg List.length h0
    rw [List.length_take] at this
    simp only [List.length_nil] at this
    omega
  have hres := resolve_append fs (dest.take j) (dest.drop (j + 1)) hpre
  rw [← hsplit] at hres
  intro heq
  rw [hres] at heq
  have hnil : components (dest.drop (j + 1)) = [] := by
    have := congrArg List.length heq
    simp only [List.length_append] at this
    exact List.length_eq_zero.mp (by omega)
  cases hlast : dest.getLast? with
  | none =>
    have : dest = [] := List.getLast?_eq_none_iff.mp hlast
    rw [this] at hlt
    simp at hlt
  | some c =>
    have hc : c ≠ '/' := by
      intro e
      rw [e] at hlast
      simp [trailing_slash, hlast] at htrail
    have hdrop : (dest.drop (j + 1)).getLast? = some c := by
      rw [hsplit, List.getLast?_append, List.getLast?_cons] at hlast
      cases hd : (dest.drop (j + 1)).getLast? with
      | none =>
        rw [hd] at hlast
        simp at hlast
        exact absurd hlast.symm hc
      | some d =>
        rw [hd] at hlast
        simpa using hlast
    exact components_from_ne_nil _ [] c hc hdrop hnil

theorem open_creat_trunc_existing (fs : FS) (p : Str) (mode : Nat) (n : Node)
    (hp : p ≠ []) (hq : resolve fs p ≠ []) (ht : trailing_slash p = false)
    (hn : fs.nodes (resolve fs p) = some n) (hd : S_ISDIR n.mode = false) :
    open_creat_trunc fs p mode =
      (set_node fs (resolve fs p) { n with data := [] }, some (resolve fs p)) := by
  unfold open_creat_trunc
  simp only
  rw [if_neg (by simp [hp, hq, ht]), hn]
  simp [hd]

theorem open_creat_trunc_new (fs : FS) (p : Str) (mode : Nat) (parent : Node)
    (hp : p ≠ []) (hq : resolve fs p ≠ []) (ht : trailing_slash p = false)
    (hn : fs.nodes (resolve fs p) = none)
    (hpar : fs.nodes (resolve fs p).dropLast = some parent)
    (hd : S_ISDIR parent.mode = true) :
    open_creat_trunc fs p mode =
      (set_node fs (resolve fs p) ⟨S_IFREG ||| clear_umask (mode &&& 0o7777) fs.umask, []⟩,
        some (resolve fs p)) := by
  unfold open_creat_trunc
  simp only
  rw [if_neg (by simp [hp, hq, ht]), hn]
  simp [hpar, hd]

/-- When the source is a file, the destination is another node and `open`
gives a descriptor for it, `copy` leaves the bytes of the source there. -/
theorem copy_exact (fs : FS) (st : Nat) (src dest : Str) (ns n0 : Node)
    (hsrc : lookup fs src = some ns) (hdir : S_ISDIR ns.mode = false)
    (hne : resolve fs src ≠ resolve fs dest) (h0 : n0.data = [])
    (hopen : open_creat_trunc fs dest ns.mode =
      (set_node fs (resolve fs dest) n0, some (resolve fs dest))) :
    copy fs st src dest = some (set_node fs (resolve fs dest) { n0 with data := ns.data }) := by
  obtain ⟨_, hnode⟩ := lookup_dir fs src ns hsrc
  unfold copy
  have hstat : stat fs src = some ns.mode := (stat_some fs src ns.mode).mpr ⟨ns, hsrc, rfl⟩
  have hin : open_rdonly fs src = some (resolve fs src) := by
    simp [open_rdonly, hsrc]
  simp only [hstat, hin, hopen]
  have hs2 : (set_node fs (resolve fs dest) n0).nodes (resolve fs src) = some ns := by
    simp [set_node, hne, hnode]
  have hsize : size_of_fd (set_node fs (resolve fs dest) n0) (some (resolve fs src)) =
      ns.data.length := by
    simp [size_of_fd, hs2]
  rw [hsize, copy_loop_exact _ _ hne ns hdir _ _ 0 n0 hs2 (by simp [set_node]) (by omega),
    set_node_set_node]
  simp [h0]

theorem get?_append_length (a b : Str) (c : Char) :
    (a ++ c :: b).get? a.length = some c := by
  induction a with
  | nil => rfl
  | cons x t ih => simpa using ih

theorem take_append_length (a b : Str) : (a ++ b).take a.length = a := by
  induction a with
  | nil => simp
  | cons x t ih => simp

/-! ## A run of `archive` -/

/-- A completed run of `archive` is a completed loop, which only adds
directories and leaves every prefix of the destination a directory, followed by
a completed `copy`. -/
theorem archive_split (fs fs1 : FS) (st0 st1 : Nat) (b : backup_t) (sp : Str)
    (hsp : b.system.path = some sp) (hrun : archive fs st0 st1 b = some fs1) :
    ∃ t new, archive_loop (archive_dest b.pkgname sp) b.pkgname.length
        (List.range' 1 ((archive_dest b.pkgname sp).length - 1)) (fs, st0) = some t ∧
      extends_by fs t.1 new ∧
      (∀ pm ∈ new, ∃ i, 1 ≤ i ∧ (archive_dest b.pkgname sp).get? i = some '/' ∧
        pm.1 = (archive_dest b.pkgname sp).take i) ∧
      (∀ i, 1 ≤ i → (archive_dest b.pkgname sp).get? i = some '/' →
        ∃ m, stat t.1 ((archive_dest b.pkgname sp).take i) = some m ∧ S_ISDIR m = true) ∧
      copy t.1 st1 sp (archive_dest b.pkgname sp) = some fs1 := by
  unfold archive at hrun
  simp only [hsp] at hrun
  cases hloop : archive_loop (archive_dest b.pkgname sp) b.pkgname.length
      (List.range' 1 ((archive_dest b.pkgname sp).length - 1)) (fs, st0) with
  | none => simp [hloop] at hrun
  | some t =>
    simp only [hloop] at hrun
    obtain ⟨new, hext, hadd, hdir⟩ := archive_loop_ext _ _ _ fs (fs, st0) t [] hloop
      (extends_by_refl fs)
    simp only [List.nil_append] at hext
    refine ⟨t, new, rfl, hext, ?_, ?_, hrun⟩
    · intro pm hpm
      obtain ⟨i, hi, hc, hp1, _⟩ := hadd pm hpm
      exact ⟨i, (List.mem_range'_1.mp hi).1, hc, hp1⟩
    · intro i h1 hc
      have hlt : i < (archive_dest b.pkgname sp).length := by
        by_contra hge
        rw [List.get?_eq_none.mpr (not_lt.mp hge)] at hc
        exact absurd hc (by simp)
      exact hdir i (List.mem_range'_1.mpr ⟨h1, by omega⟩) hc

/-- The shape of the destination of a record with a non-empty package name and
an absolute source path that names a file: it does not end in `/`, and its
parent directory is one of the prefixes the loop of `archive` makes. -/
theorem dest_shape (fs : FS) (pkgname sp : Str) (ns : Node)
    (hpk : pkgname ≠ []) (habs : sp.head? = some '/')
    (hfit : (pkgname ++ sp).length < PATH_MAX)
    (hsrc : lookup fs sp = some ns) (hdir : S_ISDIR ns.mode = false) :
    archive_dest pkgname sp ≠ [] ∧ trailing_slash (archive_dest pkgname sp) = false ∧
    resolve fs (archive_dest pkgname sp) ≠ [] ∧
    ∃ i, 1 ≤ i ∧ (archive_dest pkgname sp).get? i = some '/' ∧
      (resolve fs (archive_dest pkgname sp)).dropLast =
        resolve fs ((archive_dest pkgname sp).take i) := by
  have hdest : archive_dest pkgname sp = pkgname ++ sp := by
    unfold archive_dest snprintf
    exact List.take_of_length_le (by omega)
  rw [hdest]
  have hspne : sp ≠ [] := (lookup_dir fs sp ns hsrc).1
  have hnode := (lookup_dir fs sp ns hsrc).2
  have htr : trailing_slash sp = false := by
    unfold lookup at hsrc
    rw [if_neg hspne, hnode] at hsrc
    by_cases hc : (trailing_slash sp && !S_ISDIR ns.mode) = true
    · simp [hc] at hsrc
    · simpa [hdir] using hc
  have hmem : '/' ∈ sp := by
    cases sp with
    | nil => exact absurd rfl hspne
    | cons c t =>
      simp only [List.head?_cons, Option.some.injEq] at habs
      simp [habs]
  obtain ⟨ps, last, hs, hl⟩ := split_last_slash sp hmem
  have hlast : last ≠ [] := by
    intro h0
    rw [hs, h0] at htr
    simp [trailing_slash] at htr
  have hd2 : pkgname ++ sp = (pkgname ++ ps) ++ '/' :: last := by
    rw [hs, List.append_assoc]
  have hpre : pkgname ++ ps ≠ [] := by simp [hpk]
  have hres : resolve fs (pkgname ++ sp) = resolve fs (pkgname ++ ps) ++ [last] := by
    rw [hd2, resolve_append fs _ _ hpre, components_no_slash last hl hlast]
  refine ⟨by simp [hpk], ?_, ?_, (pkgname ++ ps).length, ?_, ?_, ?_⟩
  · unfold trailing_slash at *
    rw [List.getLast?_append_of_ne_nil _ hspne]
    exact htr
  · rw [hres]; simp
  · have := List.length_pos.mpr hpre
    omega
  · rw [hd2]
    exact get?_append_length _ _ _
  · rw [hres, List.dropLast_concat]
    congr 1
    rw [hd2]
    exact (take_append_length _ _).symm

/-! ## C6: the archived copy -/

theorem S_ISDIR_of_S_ISREG (m : Nat) (h : S_ISREG m = true) : S_ISDIR m = false := by
  unfold S_ISREG at h
  unfold S_ISDIR
  simp only [decide_eq_true_eq] at h
  rw [h]
  decide

/-- The `copy` step of `archive`, after the loop: on a destination that was not
there `copy` creates the file with the bytes of the source; on one that was
there, and is no directory and not the source, it replaces the bytes. -/
theorem copy_after_loop (fs t1 : FS) (new : List (Str × Nat)) (st1 : Nat)
    (pkgname sp : Str) (ns : Node)
    (hpk : pkgname ≠ []) (habs : sp.head? = some '/')
    (hfit : (pkgname ++ sp).length < PATH_MAX)
    (hsrc : lookup fs sp = some ns) (hdir : S_ISDIR ns.mode = false)
    (hext : extends_by fs t1 new)
    (hnew : ∀ pm ∈ new, ∃ i, 1 ≤ i ∧ (archive_dest pkgname sp).get? i = some '/' ∧
      pm.1 = (archive_dest pkgname sp).take i)
    (hdirs : ∀ i, 1 ≤ i → (archive_dest pkgname sp).get? i = some '/' →
      ∃ m, stat t1 ((archive_dest pkgname sp).take i) = some m ∧ S_ISDIR m = true) :
    (fs.nodes (resolve fs (archive_dest pkgname sp)) = none →
      copy t1 st1 sp (archive_dest pkgname sp) =
        some (set_node t1 (resolve fs (archive_dest pkgname sp))
          ⟨S_IFREG ||| clear_umask (ns.mode &&& 0o7777) fs.umask, ns.data⟩)) ∧
    (∀ nd, fs.nodes (resolve fs (archive_dest pkgname sp)) = some nd →
      S_ISDIR nd.mode = false →
      resolve fs sp ≠ resolve fs (archive_dest pkgname sp) →
      copy t1 st1 sp (archive_dest pkgname sp) =
        some (set_node t1 (resolve fs (archive_dest pkgname sp)) { nd with data := ns.data })) := by
  obtain ⟨hdne, htr, hqne, i, hi1, hislash, hparent⟩ :=
    dest_shape fs pkgname sp ns hpk habs hfit hsrc hdir
  have hres : ∀ p, resolve t1 p = resolve fs p := resolve_cwd fs t1 hext.cwd_eq
  have hsrc1 : lookup t1 sp = some ns := lookup_mono fs t1 new hext sp ns hsrc
  have hsnode : t1.nodes (resolve fs sp) = some ns := by
    have := (lookup_dir t1 sp ns hsrc1).2
    rwa [hres] at this
  constructor
  · intro hnone
    have hnone1 : t1.nodes (resolve fs (archive_dest pkgname sp)) = none := by
      by_contra hsome
      obtain ⟨⟨pm, hpm, hr⟩, _⟩ := hext.added _ hnone hsome
      obtain ⟨j, hj, hslash, hp1⟩ := hnew pm hpm
      rw [hp1] at hr
      exact resolve_prefix_ne fs _ j hj hslash htr hr
    obtain ⟨m, hm, hmd⟩ := hdirs i hi1 hislash
    obtain ⟨n, hn, hnm⟩ := (stat_some t1 _ m).mp hm
    have hpar := (lookup_dir t1 _ n hn).2
    rw [hres, ← hparent] at hpar
    have hopen := open_creat_trunc_new t1 (archive_dest pkgname sp) ns.mode n hdne
      (by rw [hres]; exact hqne) htr (by rw [hres]; exact hnone1) (by rw [hres]; exact hpar)
      (by rw [hnm]; exact hmd)
    have hne : resolve t1 sp ≠ resolve t1 (archive_dest pkgname sp) := by
      rw [hres, hres]
      intro e
      rw [e, hnone1] at hsnode
      exact absurd hsnode (by simp)
    have := copy_exact t1 st1 sp (archive_dest pkgname sp) ns _ hsrc1 hdir hne rfl hopen
    rw [this, hres, hext.umask_eq]
  · intro nd hnd hndir hne0
    have hnd1 : t1.nodes (resolve fs (archive_dest pkgname sp)) = some nd :=
      hext.keeps _ nd hnd
    have hopen := open_creat_trunc_existing t1 (archive_dest pkgname sp) ns.mode nd hdne
      (by rw [hres]; exact hqne) htr (by rw [hres]; exact hnd1) hndir
    have hne : resolve t1 sp ≠ resolve t1 (archive_dest pkgname sp) := by
      rw [hres, hres]; exact hne0
    have := copy_exact t1 st1 sp (archive_dest pkgname sp) ns _ hsrc1 hdir hne rfl hopen
    rw [this, hres]

/-- C6 (as amended): for a record with a non-empty package name whose
`system.path` is absolute and names a regular file, and whose destination
`<pkgname><system.path>` fits the `PATH_MAX` buffer, when `archive` completes:
if the destination did not exist, it is afterwards a regular file with exactly
the bytes of the source and the permission bits of the source with the bits of
the umask cleared; if an earlier archived copy was there (a node that is no
directory and is not the source file itself), it has afterwards exactly the
bytes of the source and the mode it had before, not the mode of the source. -/
theorem C6_archived_copy (fs fs1 : FS) (st0 st1 : Nat) (b : backup_t) (sp : Str) (ns : Node)
    (hsp : b.system.path = some sp) (hpk : b.pkgname ≠ []) (habs : sp.head? = some '/')
    (hfit : (b.pkgname ++ sp).length < PATH_MAX)
    (hsrc : lookup fs sp = some ns) (hreg : S_ISREG ns.mode = true)
    (hrun : archive fs st0 st1 b = some fs1) :
    (fs.nodes (resolve fs (archive_dest b.pkgname sp)) = none →
      fs1.nodes (resolve fs (archive_dest b.pkgname sp)) =
        some ⟨S_IFREG ||| clear_umask (ns.mode &&& 0o7777) fs.umask, ns.data⟩) ∧
    (∀ nd, fs.nodes (resolve fs (archive_dest b.pkgname sp)) = some nd →
      S_ISDIR nd.mode = false →
      resolve fs sp ≠ resolve fs (archive_dest b.pkgname sp) →
      fs1.nodes (resolve fs (archive_dest b.pkgname sp)) =
        some { mode := nd.mode, data := ns.data }) := by
  have hdir := S_ISDIR_of_S_ISREG ns.mode hreg
  obtain ⟨t, new, _, hext, hnew, hdirs, hcopy⟩ := archive_split fs fs1 st0 st1 b sp hsp hrun
  obtain ⟨hcreate, hover⟩ := copy_after_loop fs t.1 new st1 b.pkgname sp ns hpk habs hfit hsrc
    hdir hext hnew hdirs
  constructor
  · intro hnone
    have := hcreate hnone
    rw [hcopy] at this
    rw [Option.some.inj this]
    simp [set_node]
  · intro nd hnd hndir hne0
    have := hover nd hnd hndir hne0
    rw [hcopy] at this
    rw [Option.some.inj this]
    simp [set_node]

/-! ## C8: archiving twice -/

theorem open_rdonly_some (fs : FS) (p : Str) (q : Path) (h : open_rdonly fs p = some q) :
    q = resolve fs p ∧ ∃ n, lookup fs p = some n := by
  unfold open_rdonly at h
  cases hl : lookup fs p with
  | none => simp [hl] at h
  | some n =>
    simp only [hl, Option.some.injEq] at h
    exact ⟨h.symm, n, rfl⟩

/-- The two ways `copy` completes: the first `read` returns nothing and only
`open` has acted; or the source is a file, another node than the destination,
and the destination holds its bytes. -/
theorem copy_result (fs fs1 : FS) (st : Nat) (src dest : Str)
    (h : copy fs st src dest = some fs1) :
    (read (open_creat_trunc fs dest (match stat fs src with
        | some m => m
        | none => st)).1 (open_rdonly fs src) 0 8192 = [] ∧
      fs1 = (open_creat_trunc fs dest (match stat fs src with
        | some m => m
        | none => st)).1) ∨
    (∃ ns n0, lookup fs src = some ns ∧ S_ISDIR ns.mode = false ∧
      resolve fs src ≠ resolve fs dest ∧ n0.data = [] ∧
      open_creat_trunc fs dest ns.mode =
        (set_node fs (resolve fs dest) n0, some (resolve fs dest)) ∧
      fs1 = set_node fs (resolve fs dest) { n0 with data := ns.data }) := by
  unfold copy at h
  simp only at h
  generalize hmode : (match stat fs src with
        | some m => m
        | none => st) = mode at h ⊢
  obtain ⟨o1, o2, o3, o4, o5, o6⟩ := open_creat_trunc_spec fs dest mode
  by_cases hb : read (open_creat_trunc fs dest mode).1 (open_rdonly fs src) 0 8192 = []
  · left
    refine ⟨hb, ?_⟩
    unfold copy_loop at h
    simp only [hb, if_true, Option.some.injEq] at h
    exact h.symm
  · right
    cases hin : open_rdonly fs src with
    | none => rw [hin] at hb; simp [read] at hb
    | some qs =>
      obtain ⟨hqs, ns, hns⟩ := open_rdonly_some fs src qs hin
      have hnode := (lookup_dir fs src ns hns).2
      have hstat : stat fs src = some ns.mode := (stat_some fs src ns.mode).mpr ⟨ns, hns, rfl⟩
      rw [hstat] at hmode
      simp only at hmode
      cases hout : (open_creat_trunc fs dest mode).2 with
      | none =>
        unfold copy_loop at h
        simp only [if_neg hb, hout, write] at h
        exact absurd h (by simp)
      | some qd =>
        obtain ⟨hqd, n0, hn0, hdata, _, _, _⟩ := o6 qd hout
        rw [hin] at hb
        have hne : qs ≠ qd := by
          intro e
          apply hb
          simp [read, e, hn0, hdata]
        have hs1 : (open_creat_trunc fs dest mode).1.nodes qs = some ns := by
          rw [o4 qs (by rw [← hqd]; exact hne), hqs]
          exact hnode
        have hdir : S_ISDIR ns.mode = false := by
          by_contra hd
          apply hb
          simp [read, hs1, hd]
        have hpair : open_creat_trunc fs dest mode =
            (set_node fs (resolve fs dest) n0, some (resolve fs dest)) := by
          have e1 : (open_creat_trunc fs dest mode).1 = set_node fs (resolve fs dest) n0 := by
            cases hfs : (open_creat_trunc fs dest mode).1 with
            | mk nodes cwd umask mkdirs =>
              rw [hfs] at o1 o2 o3 o4 hn0
              simp only at o1 o2 o3 o4 hn0
              simp only [set_node, FS.mk.injEq]
              refine ⟨?_, o1, o2, o3⟩
              funext x
              by_cases hx : x = resolve fs dest
              · rw [if_pos hx, hx, ← hqd]; exact hn0
              · rw [if_neg hx]; exact o4 x hx
          rw [← e1, ← hqd, ← hout]
        refine ⟨ns, n0, hns, hdir, by rw [← hqs, ← hqd]; exact hne, hdata, ?_, ?_⟩
        · rw [hmode]; exact hpair
        · have := copy_exact fs st src dest ns n0 hns hdir (by rw [← hqs, ← hqd]; exact hne)
            hdata (by rw [hmode]; exact hpair)
          unfold copy at this
          simp only [hstat, hmode] at this
          rw [h] at this
          exact Option.some.inj this

theorem lookup_congr (fs fs1 : FS) (p : Str) (hc : fs1.cwd = fs.cwd)
    (hn : fs1.nodes (resolve fs p) = fs.nodes (resolve fs p)) :
    lookup fs1 p = lookup fs p := by
  unfold lookup
  rw [resolve_cwd fs fs1 hc, hn]

theorem open_creat_trunc_failed (fs : FS) (p : Str) (m m1 : Nat)
    (h : (open_creat_trunc fs p m).2 = none) : open_creat_trunc fs p m1 = (fs, none) := by
  unfold open_creat_trunc at *
  simp only at *
  by_cases hp : p = [] ∨ resolve fs p = [] ∨ trailing_slash p = true
  · rw [if_pos hp]
  · rw [if_neg hp] at h ⊢
    cases hn : fs.nodes (resolve fs p) with
    | some n =>
      simp only [hn] at h ⊢
      by_cases hd : S_ISDIR n.mode = true
      · rw [if_pos hd]
      · rw [if_neg hd] at h
        exact absurd h (by simp)
    | none =>
      simp only [hn] at h ⊢
      cases hpar : fs.nodes (resolve fs p).dropLast with
      | none => rfl
      | some parent =>
        simp only [hpar] at h ⊢
        by_cases hd : S_ISDIR parent.mode = true
        · rw [if_pos hd] at h
          exact absurd h (by simp)
        · rw [if_neg hd]

theorem open_creat_trunc_conditions (fs : FS) (p : Str) (m : Nat) (q : Path)
    (h : (open_creat_trunc fs p m).2 = some q) :
    p ≠ [] ∧ resolve fs p ≠ [] ∧ trailing_slash p = false := by
  unfold open_creat_trunc at h
  simp only at h
  by_cases hp : p = [] ∨ resolve fs p = [] ∨ trailing_slash p = true
  · rw [if_pos hp] at h
    exact absurd h (by simp)
  · simp only [not_or] at hp
    exact ⟨hp.1, hp.2.1, by simpa using hp.2.2⟩

/-- Archiving is idempotent at the level of `copy`: on the file system a
completed `copy` leaves, the same `copy` completes and changes nothing. -/
theorem copy_idem (fs fs1 : FS) (st st2 : Nat) (src dest : Str)
    (h : copy fs st src dest = some fs1) : copy fs1 st2 src dest = some fs1 := by
  rcases copy_result fs fs1 st src dest h with ⟨hread, hfs1⟩ | ⟨ns, n0, hns, hdir, hne, hdata,
    hopen, hfs1⟩
  · generalize hmode : (match stat fs src with
        | some m => m
        | none => st) = mode at hread hfs1
    obtain ⟨o1, o2, o3, o4, o5, o6⟩ := open_creat_trunc_spec fs dest mode
    cases hout : (open_creat_trunc fs dest mode).2 with
    | none =>
      have hsame : fs1 = fs := by rw [hfs1]; exact o5 hout
      rw [hsame]
      rw [o5 hout] at hread
      unfold copy
      simp only
      rw [open_creat_trunc_failed fs dest mode _ hout]
      unfold copy_loop
      simp only [hread, if_true]
    | some qd =>
      obtain ⟨hqd, n0, hn0, hdata, hnd, _, _⟩ := o6 qd hout
      obtain ⟨c1, c2, c3⟩ := open_creat_trunc_conditions fs dest mode qd hout
      have hcwd : fs1.cwd = fs.cwd := by rw [hfs1]; exact o1
      have hres : ∀ p, resolve fs1 p = resolve fs p := resolve_cwd fs fs1 hcwd
      have hn1 : fs1.nodes (resolve fs1 dest) = some n0 := by
        rw [hres, hfs1, ← hqd]; exact hn0
      have hopen2 : ∀ m2, open_creat_trunc fs1 dest m2 = (fs1, some (resolve fs1 dest)) := by
        intro m2
        rw [open_creat_trunc_existing fs1 dest m2 n0 c1 (by rw [hres]; exact c2) c3 hn1 hnd]
        have : ({ n0 with data := ([] : Str) } : Node) = n0 := by
          cases n0 with
          | mk md dt =>
            simp only at hdata
            rw [hdata]
        rw [this, set_node_same fs1 _ n0 hn1]
      have hread2 : read fs1 (open_rdonly fs1 src) 0 8192 = [] := by
        cases hin : open_rdonly fs1 src with
        | none => rfl
        | some q1 =>
          obtain ⟨hq1, n1, hl1⟩ := open_rdonly_some fs1 src q1 hin
          by_cases hq : q1 = resolve fs1 dest
          · simp [read, hq, hn1, hdata]
          · have hl : lookup fs1 src = lookup fs src := by
              apply lookup_congr fs fs1 src hcwd
              rw [hfs1]
              apply o4
              rw [← hres src, ← hres dest, ← hq1]
              exact hq
            have hin0 : open_rdonly fs src = some q1 := by
              unfold open_rdonly
              rw [← hl, hl1, hq1, hres]
            rw [hin0, ← hfs1] at hread
            exact hread
      unfold copy
      simp only [hopen2]
      unfold copy_loop
      simp only [hread2, if_true]
  · have hcwd : fs1.cwd = fs.cwd := by rw [hfs1]; rfl
    have hres : ∀ p, resolve fs1 p = resolve fs p := resolve_cwd fs fs1 hcwd
    have hnode1 : fs1.nodes (resolve fs dest) = some { n0 with data := ns.data } := by
      rw [hfs1]; simp [set_node]
    have hns1 : lookup fs1 src = some ns := by
      rw [lookup_congr fs fs1 src hcwd (by rw [hfs1]; simp [set_node, hne])]
      exact hns
    obtain ⟨c1, c2, c3⟩ := open_creat_trunc_conditions fs dest ns.mode (resolve fs dest)
      (by rw [hopen])
    obtain ⟨_, _, _, _, _, o6⟩ := open_creat_trunc_spec fs dest ns.mode
    obtain ⟨_, n, hn, _, hnd, _, _⟩ := o6 (resolve fs dest) (by rw [hopen])
    have hn0 : n = n0 := by
      rw [hopen] at hn
      simp only [set_node, if_true, Option.some.injEq] at hn
      exact hn.symm
    rw [hn0] at hnd
    have hopen2 := open_creat_trunc_existing fs1 dest ns.mode { n0 with data := ns.data } c1
      (by rw [hres]; exact c2) c3 (by rw [hres]; exact hnode1) hnd
    have := copy_exact fs1 st2 src dest ns { n0 with data := [] } hns1 hdir
      (by rw [hres, hres]; exact hne) rfl hopen2
    rw [this, hres]
    congr 1
    exact set_node_same fs1 _ _ hnode1

theorem archive_loop_noop (dest : Str) (root : Nat) (idx : List Nat) :
    ∀ (fs : FS) (st : Nat),
      (∀ i ∈ idx, dest.get? i = some '/' →
        ∃ m, stat fs (dest.take i) = some m ∧ S_ISDIR m = true) →
      ∃ st2, archive_loop dest root idx (fs, st) = some (fs, st2) := by
  induction idx with
  | nil => intro fs st _; exact ⟨st, rfl⟩
  | cons i rest ih =>
    intro fs st h
    unfold archive_loop
    by_cases hc : dest.get? i = some '/'
    · rw [if_pos hc]
      obtain ⟨m, hm, hd⟩ := h i (List.mem_cons_self _ _) hc
      have hmk : ∀ mode, mkpath fs (dest.take i) mode = some fs := by
        intro mode
        simp [mkpath, hm, hd]
      simp only [hmk]
      exact ih fs _ (fun j hj => h j (List.mem_cons_of_mem _ hj))
    · rw [if_neg hc]
      exact ih fs st (fun j hj => h j (List.mem_cons_of_mem _ hj))

/-- C8: on the file system a completed run of `archive` leaves, a second run on
the same record completes and leaves the file system as it is: every node has
the bytes and the mode it had, and no `mkdir` is made. -/
theorem C8_archive_idempotent (fs fs1 : FS) (st0 st1 st2 st3 : Nat) (b : backup_t)
    (hrun : archive fs st0 st1 b = some fs1) : archive fs1 st2 st3 b = some fs1 := by
  cases hsp : b.system.path with
  | none => simp [archive, hsp] at hrun
  | some sp =>
    obtain ⟨t, new, _, hext, _, hdirs, hcopy⟩ := archive_split fs fs1 st0 st1 b sp hsp hrun
    obtain ⟨c1, _, _, _, c5⟩ := copy_frame t.1 fs1 st1 sp _ hcopy
    have hprefix : ∀ i ∈ List.range' 1 ((archive_dest b.pkgname sp).length - 1),
        (archive_dest b.pkgname sp).get? i = some '/' →
        ∃ m, stat fs1 ((archive_dest b.pkgname sp).take i) = some m ∧ S_ISDIR m = true := by
      intro i hi hc
      obtain ⟨m, hm, hd⟩ := hdirs i (List.mem_range'_1.mp hi).1 hc
      obtain ⟨n, hn, hnm⟩ := (stat_some t.1 _ m).mp hm
      have hnd : S_ISDIR n.mode = true := by rw [hnm]; exact hd
      obtain ⟨hpne, hnode⟩ := lookup_dir t.1 _ n hn
      refine ⟨m, (stat_some fs1 _ m).mpr ⟨n, ?_, hnm⟩, hd⟩
      apply lookup_of_dir fs1 _ n hpne _ hnd
      rw [resolve_cwd t.1 fs1 c1]
      exact c5 _ n hnode hnd
    obtain ⟨st4, hloop⟩ := archive_loop_noop _ b.pkgname.length _ fs1 st2 hprefix
    unfold archive
    simp only [hsp, hloop]
    exact copy_idem t.1 fs1 st1 st3 sp _ hcopy

/-- Witness of C8: archiving `/etc/sudoers` of the package `sudo` twice on
`fs_sudo`. -/
theorem C8_archive_idempotent_witness :
    ∃ fs1, archive fs_sudo 0 0 record_sudoers = some fs1 ∧
      archive fs1 0 0 record_sudoers = some fs1 := by
  obtain ⟨fs1, h⟩ := Option.isSome_iff_exists.mp
    (by decide : (archive fs_sudo 0 0 record_sudoers).isSome = true)
  exact ⟨fs1, h, C8_archive_idempotent fs_sudo fs1 0 0 0 0 record_sudoers h⟩

/-! ## The archiver on `fs_sudo` -/

/-- Witness of C6: on `fs_sudo_archived` an earlier archived copy with mode
`0600` is at the destination `sudo/etc/sudoers`; after `archive` it has the
bytes of `/etc/sudoers` and still the mode `0600`. -/
theorem C6_archived_copy_witness :
    ∃ fs1, archive fs_sudo_archived 0 0 record_sudoers = some fs1 ∧
      fs1.nodes
          (resolve fs_sudo_archived
            (archive_dest record_sudoers.pkgname "/etc/sudoers".toList)) =
        some { mode := 0o100600, data := "secret".toList } := by
  obtain ⟨fs1, h⟩ := Option.isSome_iff_exists.mp
    (by decide : (archive fs_sudo_archived 0 0 record_sudoers).isSome = true)
  exact ⟨fs1, h, (C6_archived_copy fs_sudo_archived fs1 0 0 record_sudoers
    "/etc/sudoers".toList ⟨0o100644, "secret".toList⟩ rfl (by decide) (by decide) (by decide)
    (by decide) (by decide) h).2 ⟨0o100600, "old".toList⟩ (by decide) (by decide) (by decide)⟩

/-- Counterexample to C6 as stated, in both of its cases. Created: on `fs_sudo`
the umask is `077` and `/etc/sudoers` has the permission bits `0644`; `archive`
completes, the destination did not exist before, and the file it creates has
the bytes of the source but the permission bits `0600`. Overwritten: on
`fs_sudo_archived` the umask is `022`, the earlier archived copy has the
permission bits `0600` and `/etc/sudoers` has `0644`; `archive` completes, the
copy has the bytes of the source, and its permission bits are still `0600`. -/
theorem C6_counterexample :
    (fs_sudo.nodes ["etc".toList, "sudoers".toList] = some ⟨0o100644, "secret".toList⟩ ∧
      fs_sudo.nodes ["root".toList, "sudo".toList, "etc".toList, "sudoers".toList] = none ∧
      resolve fs_sudo (archive_dest record_sudoers.pkgname "/etc/sudoers".toList) =
        ["root".toList, "sudo".toList, "etc".toList, "sudoers".toList] ∧
      (archive fs_sudo 0 0 record_sudoers).bind
          (fun f => f.nodes ["root".toList, "sudo".toList, "etc".toList, "sudoers".toList]) =
        some ⟨0o100600, "secret".toList⟩ ∧
      (0o100600 &&& 0o7777 ≠ 0o100644 &&& 0o7777)) ∧
    (fs_sudo_archived.nodes ["etc".toList, "sudoers".toList] =
        some ⟨0o100644, "secret".toList⟩ ∧
      fs_sudo_archived.nodes ["root".toList, "sudo".toList, "etc".toList, "sudoers".toList] =
        some ⟨0o100600, "old".toList⟩ ∧
      resolve fs_sudo_archived (archive_dest record_sudoers.pkgname "/etc/sudoers".toList) =
        ["root".toList, "sudo".toList, "etc".toList, "sudoers".toList] ∧
      clear_umask (0o100644 &&& 0o7777) fs_sudo_archived.umask = 0o644 ∧
      (archive fs_sudo_archived 0 0 record_sudoers).bind
          (fun f => f.nodes ["root".toList, "sudo".toList, "etc".toList, "sudoers".toList]) =
        some ⟨0o100600, "secret".toList⟩) := by
  decide

/-! ## When the loop of `archive` completes -/

theorem take_take_prefix (dest : Str) (i j : Nat) (h : j ≤ i) :
    (dest.take i).take j = dest.take j := by
  rw [List.take_take, Nat.min_eq_left h]

/-- The parent of a prefix of `dest` that ends before a `/`: the node of a
shorter such prefix, or the directory resolution starts from. The prefix may
also resolve to that node itself (after `//`). -/
theorem prefix_parent (fs : FS) (dest : Str) (i : Nat) (h1 : 1 ≤ i)
    (hs : dest.get? i = some '/') :
    (∃ j, 1 ≤ j ∧ j < i ∧ dest.get? j = some '/' ∧
      (resolve fs (dest.take i) = resolve fs (dest.take j) ∨
        (resolve fs (dest.take i) ≠ [] ∧
          (resolve fs (dest.take i)).dropLast = resolve fs (dest.take j)))) ∨
    (resolve fs (dest.take i) = base_of fs dest ∨
      (resolve fs (dest.take i) ≠ [] ∧
        (resolve fs (dest.take i)).dropLast = base_of fs dest)) := by
  have hlt : i < dest.length := by
    by_contra hge
    rw [List.get?_eq_none.mpr (not_lt.mp hge)] at hs
    exact absurd hs (by simp)
  have hlen : (dest.take i).length = i := by
    rw [List.length_take]; omega
  cases hp : dest.take i with
  | nil => rw [hp] at hlen; simp at hlen; omega
  | cons c rest =>
    have hhead : dest.head? = some c := by
      cases dest with
      | nil => simp at hlt
      | cons d t =>
        cases i with
        | zero => omega
        | succ k =>
          simp only [List.take_succ_cons, List.cons.injEq] at hp
          simp [hp.1]
    by_cases hmem : '/' ∈ rest
    · left
      obtain ⟨pre, last, hsplit, hl⟩ := split_last_slash rest hmem
      have hp2 : dest.take i = (c :: pre) ++ '/' :: last := by
        rw [hp, hsplit]; rfl
      have hj : (c :: pre).length < i := by
        have := congrArg List.length hp2
        rw [hlen] at this
        simp only [List.length_append, List.length_cons] at this ⊢
        omega
      have htake : dest.take (c :: pre).length = c :: pre := by
        rw [← take_take_prefix dest i _ (le_of_lt hj), hp2]
        exact take_append_length _ _
      have hget : dest.get? (c :: pre).length = some '/' := by
        have h2 : (dest.take i).get? (c :: pre).length = some '/' := by
          rw [hp2]; exact get?_append_length _ _ _
        rw [List.get?_eq_getElem?] at h2 ⊢
        rw [List.getElem?_take_of_lt hj] at h2
        exact h2
      refine ⟨(c :: pre).length, by simp, hj, hget, ?_⟩
      rw [htake, ← hp, hp2, resolve_append fs (c :: pre) last (by simp)]
      by_cases hlast : last = []
      · left
        rw [hlast]
        simp [components, components_from]
      · right
        rw [components_no_slash last hl hlast]
        simp
    · right
      unfold base_of
      rw [hhead]
      by_cases hc : c = '/'
      · have hres : resolve fs (c :: rest) = components_from rest [] := by
          simp [resolve, components, components_from, hc]
        rw [hres]
        simp only [hc, if_true]
        by_cases hr : rest = []
        · left
          simp [hr, components_from]
        · right
          have := components_from_no_slash rest [] hmem (by simpa using hr)
          rw [this]
          simp
      · have hno : '/' ∉ c :: rest := by
          intro h
          rcases List.mem_cons.mp h with h | h
          · exact hc h.symm
          · exact hmem h
        have hres : resolve fs (c :: rest) = fs.cwd ++ [c :: rest] := by
          unfold resolve
          rw [components_no_slash _ hno (by simp)]
          simp [hc]
        rw [hres]
        right
        simp [hc]

theorem is_dir_iff (fs : FS) (q : Path) :
    is_dir fs q = true ↔ ∃ n, fs.nodes q = some n ∧ S_ISDIR n.mode = true := by
  unfold is_dir
  cases fs.nodes q <;> simp

theorem is_dir_mono (fs fs1 : FS) (new : List (Str × Nat)) (h : extends_by fs fs1 new)
    (q : Path) (hd : is_dir fs q = true) : is_dir fs1 q = true := by
  obtain ⟨n, hn, hm⟩ := (is_dir_iff fs q).mp hd
  exact (is_dir_iff fs1 q).mpr ⟨n, h.keeps q n hn, hm⟩

theorem mkdir_ok (fs : FS) (p : Str) (mode : Nat) (hp : p ≠ []) (hq : resolve fs p ≠ [])
    (hn : fs.nodes (resolve fs p) = none)
    (hpar : is_dir fs (resolve fs p).dropLast = true) :
    ∃ fs2, mkdir fs p mode = some fs2 := by
  obtain ⟨parent, hpn, hpd⟩ := (is_dir_iff fs _).mp hpar
  unfold mkdir
  simp only
  rw [if_neg (by simp [hp, hq]), hn]
  simp only [hpn, hpd, if_true]
  exact ⟨_, rfl⟩

/-- The loop of `archive` completes when the directory resolution starts from
exists and no prefix of the destination is there as something else than a
directory. -/
theorem archive_loop_completes (fs : FS) (dest : Str) (root : Nat)
    (hbase : is_dir fs (base_of fs dest) = true)
    (hP1 : ∀ i, 1 ≤ i → dest.get? i = some '/' →
      ∀ n, fs.nodes (resolve fs (dest.take i)) = some n → S_ISDIR n.mode = true) :
    ∀ (n a : Nat) (fs1 : FS) (st : Nat) (new : List (Str × Nat)), 1 ≤ a →
      extends_by fs fs1 new →
      (∀ j, 1 ≤ j → j < a → dest.get? j = some '/' →
        is_dir fs1 (resolve fs (dest.take j)) = true) →
      ∃ t, archive_loop dest root (List.range' a n) (fs1, st) = some t := by
  intro n
  induction n with
  | zero => intro a fs1 st new _ _ _; exact ⟨(fs1, st), rfl⟩
  | succ k ih =>
    intro a fs1 st new ha hext hinv
    rw [List.range'_succ]
    unfold archive_loop
    by_cases hc : dest.get? a = some '/'
    · rw [if_pos hc]
      simp only
      generalize hst : (if a > root then
          match stat fs1 ((dest.drop root).take (a - root)) with
          | some m => m
          | none => st
        else st) = st2
      generalize (if a > root then st2 else 0o777) = mode
      have hlt : a < dest.length := by
        by_contra hge
        rw [List.get?_eq_none.mpr (not_lt.mp hge)] at hc
        exact absurd hc (by simp)
      have hpne : dest.take a ≠ [] := by
        intro h0
        have := congrArg List.length h0
        rw [List.length_take] at this
        simp only [List.length_nil] at this
        omega
      have hres : resolve fs1 (dest.take a) = resolve fs (dest.take a) :=
        resolve_cwd fs fs1 hext.cwd_eq _
      have hdone : ∀ fs2 new2 add, extends_by fs fs2 new2 → extends_by fs1 fs2 add →
          is_dir fs2 (resolve fs (dest.take a)) = true →
          ∃ t, archive_loop dest root (List.range' (a + 1) k) (fs2, st2) = some t := by
        intro fs2 new2 add hext2 hadd hdir2
        apply ih (a + 1) fs2 st2 new2 (by omega) hext2
        intro j hj1 hja hcj
        by_cases hjeq : j = a
        · rw [hjeq]; exact hdir2
        · exact is_dir_mono fs1 fs2 add hadd _ (hinv j hj1 (by omega) hcj)
      cases hnode : fs1.nodes (resolve fs (dest.take a)) with
      | some n0 =>
        have hnd : S_ISDIR n0.mode = true := by
          cases hfs : fs.nodes (resolve fs (dest.take a)) with
          | some n1 =>
            have := hext.keeps _ n1 hfs
            rw [hnode] at this
            simp only [Option.some.injEq] at this
            rw [this]
            exact hP1 a ha hc n1 hfs
          | none =>
            obtain ⟨_, n2, hn2, hd2⟩ := hext.added _ hfs (by rw [hnode]; simp)
            rw [hnode] at hn2
            simp only [Option.some.injEq] at hn2
            rw [hn2]; exact hd2
        have hstat : stat fs1 (dest.take a) = some n0.mode :=
          (stat_some fs1 _ _).mpr ⟨n0, lookup_of_dir fs1 _ n0 hpne (by rw [hres]; exact hnode)
            hnd, rfl⟩
        have hmk : mkpath fs1 (dest.take a) mode = some fs1 := by
          simp [mkpath, hstat, hnd]
        rw [hmk]
        simp only
        exact hdone fs1 new [] hext (extends_by_refl fs1)
          ((is_dir_iff fs1 _).mpr ⟨n0, hnode, hnd⟩)
      | none =>
        have hstat : stat fs1 (dest.take a) = none := by
          unfold stat lookup
          rw [if_neg hpne, hres, hnode]
          rfl
        have hparent : resolve fs (dest.take a) ≠ [] ∧
            is_dir fs1 (resolve fs (dest.take a)).dropLast = true := by
          rcases prefix_parent fs dest a ha hc with ⟨j, hj1, hja, hcj, hor⟩ | hor
          · have hdj := hinv j hj1 hja hcj
            rcases hor with h | ⟨hne, h⟩
            · rw [← h] at hdj
              obtain ⟨n, hn, _⟩ := (is_dir_iff fs1 _).mp hdj
              rw [hnode] at hn
              exact absurd hn (by simp)
            · exact ⟨hne, by rw [h]; exact hdj⟩
          · have hb := is_dir_mono fs fs1 new hext _ hbase
            rcases hor with h | ⟨hne, h⟩
            · rw [← h] at hb
              obtain ⟨n, hn, _⟩ := (is_dir_iff fs1 _).mp hb
              rw [hnode] at hn
              exact absurd hn (by simp)
            · exact ⟨hne, by rw [h]; exact hb⟩
        obtain ⟨fs2, hmkdir⟩ := mkdir_ok fs1 (dest.take a) mode hpne
          (by rw [hres]; exact hparent.1) (by rw [hres]; exact hnode)
          (by rw [hres]; exact hparent.2)
        have hmk : mkpath fs1 (dest.take a) mode = some fs2 := by
          simp [mkpath, hstat, hmkdir]
        rw [hmk]
        simp only
        obtain ⟨hext2, _, m, hm, hmd⟩ := mkdir_ext fs fs1 fs2 new _ mode hext hmkdir
        obtain ⟨hext12, _, _⟩ := mkdir_ext fs1 fs1 fs2 [] _ mode (extends_by_refl fs1) hmkdir
        have hdir2 : is_dir fs2 (resolve fs (dest.take a)) = true := by
          obtain ⟨n, hn, hnm⟩ := (stat_some fs2 _ m).mp hm
          have hnode2 := (lookup_dir fs2 _ n hn).2
          rw [resolve_cwd fs fs2 hext2.cwd_eq] at hnode2
          exact (is_dir_iff fs2 _).mpr ⟨n, hnode2, by rw [hnm]; exact hmd⟩
        exact hdone fs2 _ _ hext2 hext12 hdir2
    · rw [if_neg hc]
      apply ih (a + 1) fs1 st new (by omega) hext
      intro j hj1 hja hcj
      by_cases hjeq : j = a
      · rw [hjeq] at hcj; exact absurd hcj hc
      · exact hinv j hj1 (by omega) hcj

/-- A run of `archive` completes when the package name is not empty, the source
path is absolute and names a regular file, the destination fits the buffer, the
directory resolution of the destination starts from exists, no prefix of the
destination is there as something else than a directory, and the destination
itself, if it is there, is neither a directory nor the source. -/
theorem archive_completes (fs : FS) (st0 st1 : Nat) (b : backup_t) (sp : Str) (ns : Node)
    (hsp : b.system.path = some sp) (hpk : b.pkgname ≠ []) (habs : sp.head? = some '/')
    (hfit : (b.pkgname ++ sp).length < PATH_MAX)
    (hsrc : lookup fs sp = some ns) (hreg : S_ISREG ns.mode = true)
    (hbase : is_dir fs (base_of fs (archive_dest b.pkgname sp)) = true)
    (hP1 : ∀ i, 1 ≤ i → (archive_dest b.pkgname sp).get? i = some '/' →
      ∀ n, fs.nodes (resolve fs ((archive_dest b.pkgname sp).take i)) = some n →
        S_ISDIR n.mode = true)
    (hP3 : ∀ nd, fs.nodes (resolve fs (archive_dest b.pkgname sp)) = some nd →
      S_ISDIR nd.mode = false ∧ resolve fs sp ≠ resolve fs (archive_dest b.pkgname sp)) :
    ∃ fs1, archive fs st0 st1 b = some fs1 := by
  have hdir := S_ISDIR_of_S_ISREG ns.mode hreg
  obtain ⟨t, hloop⟩ := archive_loop_completes fs (archive_dest b.pkgname sp) b.pkgname.length
    hbase hP1 ((archive_dest b.pkgname sp).length - 1) 1 fs st0 [] (le_refl 1)
    (extends_by_refl fs) (by intro j h1 h2; omega)
  obtain ⟨new, hext, hadd, hdirs⟩ := archive_loop_ext _ _ _ fs (fs, st0) t [] hloop
    (extends_by_refl fs)
  simp only [List.nil_append] at hext
  have hnew : ∀ pm ∈ new, ∃ i, 1 ≤ i ∧ (archive_dest b.pkgname sp).get? i = some '/' ∧
      pm.1 = (archive_dest b.pkgname sp).take i := by
    intro pm hpm
    obtain ⟨i, hi, hc, hp1, _⟩ := hadd pm hpm
    exact ⟨i, (List.mem_range'_1.mp hi).1, hc, hp1⟩
  have hdirs2 : ∀ i, 1 ≤ i → (archive_dest b.pkgname sp).get? i = some '/' →
      ∃ m, stat t.1 ((archive_dest b.pkgname sp).take i) = some m ∧ S_ISDIR m = true := by
    intro i h1 hc
    have hlt : i < (archive_dest b.pkgname sp).length := by
      by_contra hge
      rw [List.get?_eq_none.mpr (not_lt.mp hge)] at hc
      exact absurd hc (by simp)
    exact hdirs i (List.mem_range'_1.mpr ⟨h1, by omega⟩) hc
  obtain ⟨hcreate, hover⟩ := copy_after_loop fs t.1 new st1 b.pkgname sp ns hpk habs hfit hsrc
    hdir hext hnew hdirs2
  unfold archive
  simp only [hsp, hloop]
  cases hnode : fs.nodes (resolve fs (archive_dest b.pkgname sp)) with
  | none => exact ⟨_, hcreate hnode⟩
  | some nd => exact ⟨_, hover nd hnode (hP3 nd hnode).1 (hP3 nd hnode).2⟩

/-! ## C5: directory reconstruction -/

/-- C5: `archive` on a record completes when the package name is not empty, the
source path is absolute and names a regular file, the destination fits the
buffer, the directory its resolution starts from exists, no prefix of the
destination is there as something else than a directory and the destination, if
there, is neither a directory nor the source. When `archive` completes, the
`mkdir` calls it made are for prefixes of the destination
`<pkgname><system.path>` that end before a `/` and that `stat` did not find
before, each requested with mode `0777` when the prefix lies within the package
name and otherwise with the `st_mode` of the prefix of `system.path` ending at
the same `/` (when `stat` finds it); afterwards every such prefix is a
directory, each one that `stat` did not find before was made by one of the
calls, and every directory that existed is as it was. -/
theorem C5_directory_reconstruction (fs : FS) (st0 st1 : Nat) (b : backup_t) (sp : Str)
    (hsp : b.system.path = some sp) :
    (∀ ns, b.pkgname ≠ [] → sp.head? = some '/' → (b.pkgname ++ sp).length < PATH_MAX →
      lookup fs sp = some ns → S_ISREG ns.mode = true →
      is_dir fs (base_of fs (archive_dest b.pkgname sp)) = true →
      (∀ i, 1 ≤ i → (archive_dest b.pkgname sp).get? i = some '/' →
        ∀ n, fs.nodes (resolve fs ((archive_dest b.pkgname sp).take i)) = some n →
          S_ISDIR n.mode = true) →
      (∀ nd, fs.nodes (resolve fs (archive_dest b.pkgname sp)) = some nd →
        S_ISDIR nd.mode = false ∧ resolve fs sp ≠ resolve fs (archive_dest b.pkgname sp)) →
      ∃ fs1, archive fs st0 st1 b = some fs1) ∧
    (∀ fs1, archive fs st0 st1 b = some fs1 →
      ∃ new, fs1.mkdirs = fs.mkdirs ++ new ∧
        (∀ pm ∈ new, ∃ i, 1 ≤ i ∧ (archive_dest b.pkgname sp).get? i = some '/' ∧
          pm.1 = (archive_dest b.pkgname sp).take i ∧ stat fs pm.1 = none ∧
          (i ≤ b.pkgname.length → pm.2 = 0o777) ∧
          (b.pkgname.length < i →
            ∀ m, stat fs (sp.take (i - b.pkgname.length)) = some m → pm.2 = m)) ∧
        (∀ i, 1 ≤ i → (archive_dest b.pkgname sp).get? i = some '/' →
          (∃ m, stat fs1 ((archive_dest b.pkgname sp).take i) = some m ∧ S_ISDIR m = true) ∧
          (stat fs ((archive_dest b.pkgname sp).take i) = none →
            ∃ pm ∈ new, resolve fs pm.1 = resolve fs ((archive_dest b.pkgname sp).take i))) ∧
        (∀ q n, fs.nodes q = some n → S_ISDIR n.mode = true → fs1.nodes q = some n)) :=
  ⟨fun ns hpk habs hfit hsrc hreg hbase hP1 hP3 =>
      archive_completes fs st0 st1 b sp ns hsp hpk habs hfit hsrc hreg hbase hP1 hP3,
    fun fs1 hrun => archive_directories fs fs1 st0 st1 b sp hsp hrun⟩

/-- Witness of C5: archiving `/etc/sudoers` of the package `sudo` on `fs_sudo`,
where neither `sudo` nor `sudo/etc` exists: the run completes and makes the two
directories. -/
theorem C5_directory_reconstruction_witness :
    ∃ fs1, archive fs_sudo 0 0 record_sudoers = some fs1 ∧
      fs1.mkdirs = [("sudo".toList, 0o777), ("sudo/etc".toList, 0o040750)] ∧
      (∀ q n, fs_sudo.nodes q = some n → S_ISDIR n.mode = true → fs1.nodes q = some n) := by
  have hC := C5_directory_reconstruction fs_sudo 0 0 record_sudoers "/etc/sudoers".toList rfl
  obtain ⟨fs1, hrun⟩ := hC.1 ⟨0o100644, "secret".toList⟩ (by decide) (by decide) (by decide)
    (by decide) (by decide) (by decide)
    (by
      intro i h1 hc n hn
      have hlen : (archive_dest record_sudoers.pkgname "/etc/sudoers".toList).length = 16 := by
        decide
      have hlt : i < 16 := by
        by_contra hge
        have hle : (archive_dest record_sudoers.pkgname "/etc/sudoers".toList).length ≤ i := by
          rw [hlen]; omega
        rw [List.get?_eq_none.mpr hle] at hc
        exact absurd hc (by simp)
      have h4 : fs_sudo.nodes (resolve fs_sudo
          ((archive_dest record_sudoers.pkgname "/etc/sudoers".toList).take 4)) = none := by
        decide
      have h8 : fs_sudo.nodes (resolve fs_sudo
          ((archive_dest record_sudoers.pkgname "/etc/sudoers".toList).take 8)) = none := by
        decide
      interval_cases i <;> first
        | exact absurd hc (by decide)
        | (rw [h4] at hn; exact absurd hn (by simp))
        | (rw [h8] at hn; exact absurd hn (by simp)))
    (by
      intro nd hnd
      have h0 : fs_sudo.nodes (resolve fs_sudo
          (archive_dest record_sudoers.pkgname "/etc/sudoers".toList)) = none := by
        decide
      rw [h0] at hnd
      exact absurd hnd (by simp))
  obtain ⟨new, hlog, _, _, hkeep⟩ := hC.2 fs1 hrun
  refine ⟨fs1, hrun, ?_, hkeep⟩
  have hval : (archive fs_sudo 0 0 record_sudoers).map (fun f => f.mkdirs) =
      some [("sudo".toList, 0o777), ("sudo/etc".toList, 0o040750)] := by decide
  rw [hrun] at hval
  exact Option.some.inj hval

end Pacrat
